import Mathlib

/-!
Verification of the campus-map backend against its specification.

The first part embeds the offline routing controller
(`src/controllers/offlineRouteController.ts`): graph loading, undirected
adjacency expansion, Dijkstra search with a linear-scan extract-min, and
predecessor-chasing path reconstruction.  The second part embeds the
dual-store (PostgreSQL canonical / SQLite mirror) CRUD controllers for
categories and places.

Modelling conventions:
* node identifiers are strings, as in the source;
* JavaScript `Infinity` is `Option.none`, finite distances are `Nat`
  (edge costs in the source are non-negative numbers; all claims are about
  integral costs);
* the JS `while` loops run behind a fuel counter equal to a bound that the
  loop can never exceed (each iteration of the search removes one element
  of the frontier set; the reconstruction loop is proved to stay within
  the number of keys), which keeps every definition kernel-evaluable.
-/

namespace CampusMap

abbrev Node := String

/-- One directed leg of the adjacency structure, mirroring the entries
pushed into `adj` by `offlineRoute` (`{ to, cost, edgeId }`). -/
structure Leg where
  «to» : Node
  cost : Nat
  edgeId : String
deriving DecidableEq

/-- A persisted row of the `Edge` entity: `fromId`, `toId`, a cost column
(`none` models an unset / missing numeric value) and the generated id. -/
structure EdgeRec where
  id : String
  fromId : Node
  toId : Node
  cost : Option Nat
deriving DecidableEq

/-- The adjacency mapping `adj` is a JS object: an insertion-ordered list
of keys, each with its list of pushed legs. -/
abbrev Adj := List (Node × List Leg)

/-- The source computes each leg cost as `e.cost || 1`: JavaScript `||`
replaces any falsy value, so both a missing cost and a stored cost of `0`
become `1`. -/
def costOr1 : Option Nat → Nat
  | none => 1
  | some c => if c = 0 then 1 else c

/-- Models `if (!adj[k]) adj[k] = []; adj[k].push(l)`: append the leg to
the key's list, creating the key at the end of the object if absent. -/
def pushLeg (adj : Adj) (k : Node) (l : Leg) : Adj :=
  if adj.any (fun p => p.1 = k) then
    adj.map (fun p => if p.1 = k then (p.1, p.2 ++ [l]) else p)
  else
    adj ++ [(k, [l])]

/-- One iteration of the edge loop in `offlineRoute`: push the forward leg
`fromId → toId`, then the reverse leg `toId → fromId`, both with cost
`e.cost || 1` and carrying the edge id. -/
def addEdge (adj : Adj) (e : EdgeRec) : Adj :=
  pushLeg (pushLeg adj e.fromId ⟨e.toId, costOr1 e.cost, e.id⟩)
    e.toId ⟨e.fromId, costOr1 e.cost, e.id⟩

/-- The adjacency mapping built by `offlineRoute` from the loaded edges. -/
def buildAdj (edges : List EdgeRec) : Adj :=
  edges.foldl addEdge []

/-- The keys of the adjacency object, in insertion order
(`Object.keys(adj)`). -/
def keysOf (adj : Adj) : List Node :=
  adj.map (fun p => p.1)

/-- The legs stored under a key (`adj[u] || []`). -/
def legsOf (adj : Adj) (u : Node) : List Leg :=
  match adj.find? (fun p => p.1 = u) with
  | some p => p.2
  | none => []

/-- Strict comparison of tentative distances, with `none` playing
`Infinity`: `dist[v] < best` in the source.  `Infinity < x` is always
false and `a < Infinity` holds for every finite `a`. -/
def ltD : Option Nat → Option Nat → Bool
  | none, _ => false
  | some _, none => true
  | some a, some b => a < b

/-- The linear scan `for (const v of pq) if (dist[v] < best) ...` with the
running best candidate and value (initially `u = null`, `best = ∞`). -/
def extractMinAux (dist : Node → Option Nat) :
    List Node → Option Node × Option Nat → Option Node × Option Nat
  | [], acc => acc
  | v :: rest, acc =>
    extractMinAux dist rest (if ltD (dist v) acc.2 then (some v, dist v) else acc)

/-- Extract-min over the frontier: the first element of the frontier whose
distance is strictly smaller than every earlier candidate; `none` when all
remaining tentative distances are infinite. -/
def extractMin (dist : Node → Option Nat) (pq : List Node) : Option Node :=
  (extractMinAux dist pq (none, none)).1

/-- Relaxation of the extracted node's neighbor list, in order:
`alt = dist[u] + e.cost; if (alt < dist[e.to]) { dist[e.to] = alt;
prev[e.to] = u }`.  `du` is `dist[u]`; relaxation can never lower
`dist[u]` itself (that would need `du + c < du` with `c : Nat`), so
reading it once is equivalent to the source's re-reads. -/
def relaxList (u : Node) (du : Nat) :
    List Leg → (Node → Option Nat) → (Node → Option Node) →
    (Node → Option Nat) × (Node → Option Node)
  | [], dist, prev => (dist, prev)
  | e :: rest, dist, prev =>
    if ltD (some (du + e.cost)) (dist e.«to») then
      relaxList u du rest
        (fun x => if x = e.«to» then some (du + e.cost) else dist x)
        (fun x => if x = e.«to» then some u else prev x)
    else
      relaxList u du rest dist prev

/-- The main `while (pq.size)` loop.  Each iteration extracts the minimum
unvisited node (breaking when none has a finite distance), stops when the
goal is extracted, and otherwise relaxes the node's legs.  The fuel starts
at the frontier's size and each iteration removes one frontier element, so
the fuel never runs out before the loop's own exit conditions. -/
def dijkstraLoop (adj : Adj) (goal : Node) :
    Nat → List Node → (Node → Option Nat) → (Node → Option Node) →
    (Node → Option Nat) × (Node → Option Node)
  | 0, _, dist, prev => (dist, prev)
  | fuel + 1, pq, dist, prev =>
    match extractMin dist pq with
    | none => (dist, prev)
    | some u =>
      if u = goal then (dist, prev)
      else
        match dist u with
        | none => dijkstraLoop adj goal fuel (pq.erase u) dist prev
        | some du =>
          let dp := relaxList u du (legsOf adj u) dist prev
          dijkstraLoop adj goal fuel (pq.erase u) dp.1 dp.2

/-- Truthiness of the reconstruction cursor: JavaScript `while (cur)`
continues only while `cur` is a non-null, non-empty string. -/
def truthy : Option Node → Bool
  | none => false
  | some s => !(s = "")

/-- The reconstruction loop `while (cur) { path.unshift(cur);
cur = prev[cur] }`.  Exhausting the fuel while the cursor is still truthy
would mean the source loops forever; that outcome is `none` and is proved
unreachable for states produced by the search. -/
def buildPath (prev : Node → Option Node) :
    Nat → Option Node → List Node → Option (List Node)
  | 0, cur, acc => if truthy cur then none else some acc
  | fuel + 1, cur, acc =>
    match cur with
    | none => some acc
    | some c => if c = "" then some acc else buildPath prev fuel (prev c) (c :: acc)

/-- The distance and predecessor maps at the end of the search, starting
from `dist` infinite everywhere except `dist[start] = 0`, `prev` all null,
and the frontier holding every key. -/
def dijkstraRun (adj : Adj) (start goal : Node) :
    (Node → Option Nat) × (Node → Option Node) :=
  dijkstraLoop adj goal (keysOf adj).length (keysOf adj)
    (fun x => if x = start then some 0 else none) (fun _ => none)

/-- The `dijkstra` function of the controller: `null` when the start or
goal is missing from the adjacency mapping or the goal's final distance is
infinite, otherwise the reconstructed path with the goal's distance. -/
def dijkstra (adj : Adj) (start goal : Node) : Option (List Node × Nat) :=
  if start ∈ keysOf adj ∧ goal ∈ keysOf adj then
    match (dijkstraRun adj start goal).1 goal with
    | none => none
    | some d =>
      match buildPath (dijkstraRun adj start goal).2
          ((keysOf adj).length + 1) (some goal) [] with
      | none => none
      | some p => some (p, d)
  else none

/-- The offline shortest-path operation: load the edge set, expand it into
the undirected adjacency mapping, and run the search. -/
def shortestPath (edges : List EdgeRec) (fromId toId : Node) :
    Option (List Node × Nat) :=
  dijkstra (buildAdj edges) fromId toId

/-! Specification layer: tentative distances as `WithTop Nat`, walks in
the adjacency structure, and the exact shape of `buildAdj`'s output. -/

/-- Interpretation of a tentative distance in the extended naturals. -/
def toE : Option Nat → WithTop Nat
  | none => ⊤
  | some a => (a : WithTop Nat)

theorem ltD_iff (a b : Option Nat) : ltD a b = true ↔ toE a < toE b := by
  cases a <;> cases b <;>
    simp [ltD, toE, WithTop.coe_lt_top, WithTop.coe_lt_coe]

theorem ltD_false_iff (a b : Option Nat) : ltD a b = false ↔ toE b ≤ toE a := by
  rw [← Bool.not_eq_true, ltD_iff, not_lt]

theorem toE_eq_top_iff (a : Option Nat) : toE a = ⊤ ↔ a = none := by
  cases a <;> simp [toE]

theorem toE_coe_le_iff (a : Nat) (b : Option Nat) :
    toE b ≤ (a : WithTop Nat) ↔ ∃ n, b = some n ∧ n ≤ a := by
  cases b <;> simp [toE, WithTop.coe_le_coe]

/-- A single directed leg from `u` to `v` of cost `c` in the adjacency
structure. -/
def HasLeg (adj : Adj) (u v : Node) (c : Nat) : Prop :=
  ∃ l ∈ legsOf adj u, l.«to» = v ∧ l.cost = c

/-- A walk through the adjacency structure, as the list of its nodes
together with its total cost. -/
inductive WalkL (adj : Adj) : List Node → Nat → Prop
  | single (u : Node) : WalkL adj [u] 0
  | cons {u v : Node} {c d : Nat} {l : List Node} :
      HasLeg adj u v c → WalkL adj (v :: l) d → WalkL adj (u :: v :: l) (c + d)

/-- A walk from `s` to `g` of total cost `d` exists. -/
def WalkFrom (adj : Adj) (s g : Node) (d : Nat) : Prop :=
  ∃ l, WalkL adj l d ∧ l.head? = some s ∧ l.getLast? = some g

/-- Connectivity in the adjacency structure. -/
def Reach (adj : Adj) (s g : Node) : Prop :=
  ∃ d, WalkFrom adj s g d

/-- Every key of the adjacency maps only to other keys. -/
def AdjWF (adj : Adj) : Prop :=
  ∀ u, ∀ l ∈ legsOf adj u, l.«to» ∈ keysOf adj

/-- Every leg cost is positive. -/
def AdjPos (adj : Adj) : Prop :=
  ∀ u, ∀ l ∈ legsOf adj u, 1 ≤ l.cost

theorem hasLeg_mem_keys {adj : Adj} {u v : Node} {c : Nat}
    (h : HasLeg adj u v c) : u ∈ keysOf adj := by
  obtain ⟨l, hl, -, -⟩ := h
  unfold legsOf at hl
  cases hfind : adj.find? (fun p => p.1 = u) with
  | none => rw [hfind] at hl; exact absurd hl (List.not_mem_nil l)
  | some p =>
    have hp := List.find?_some hfind
    have hmem := List.mem_of_find?_eq_some hfind
    simp only [decide_eq_true_eq] at hp
    exact hp ▸ List.mem_map_of_mem (fun q => q.1) hmem

/-- A walk is nonempty. -/
theorem WalkL.ne_nil {adj : Adj} {l : List Node} {d : Nat}
    (h : WalkL adj l d) : l ≠ [] := by
  cases h <;> simp

/-- Extending a walk by one leg at its end. -/
theorem WalkL.snoc {adj : Adj} {l : List Node} {d : Nat} {u v : Node} {c : Nat}
    (h : WalkL adj l d) (hlast : l.getLast? = some u) (hleg : HasLeg adj u v c) :
    WalkL adj (l ++ [v]) (d + c) := by
  induction h with
  | single w =>
    simp only [List.getLast?_singleton, Option.some.injEq] at hlast
    subst hlast
    simpa [Nat.add_comm] using WalkL.cons hleg (WalkL.single v)
  | cons hstep htail ih =>
    rename_i a b cab dtail ltail
    have hlast2 : (b :: ltail).getLast? = some u := by
      rwa [List.getLast?_cons_cons] at hlast
    have := WalkL.cons hstep (ih hlast2)
    simpa [Nat.add_assoc] using this

theorem walkFrom_snoc {adj : Adj} {s u v : Node} {d c : Nat}
    (h : WalkFrom adj s u d) (hleg : HasLeg adj u v c) :
    WalkFrom adj s v (d + c) := by
  obtain ⟨l, hw, hhead, hlast⟩ := h
  refine ⟨l ++ [v], hw.snoc hlast hleg, ?_, ?_⟩
  · cases l with
    | nil => exact absurd rfl hw.ne_nil
    | cons a t => simpa using hhead
  · simp

theorem walkFrom_refl (adj : Adj) (u : Node) : WalkFrom adj u u 0 :=
  ⟨[u], WalkL.single u, rfl, rfl⟩

theorem find?_append (l₁ l₂ : Adj) (p : Node × List Leg → Bool) :
    (l₁ ++ l₂).find? p =
      match l₁.find? p with
      | some a => some a
      | none => l₂.find? p := by
  induction l₁ with
  | nil => simp
  | cons a t ih =>
    by_cases h : p a
    · simp [List.find?, h]
    · simp only [Bool.not_eq_true] at h
      simp [List.find?, h, ih]

theorem find?_map_fst (adj : Adj) (f : Node × List Leg → Node × List Leg)
    (hf : ∀ p, (f p).1 = p.1) (u : Node) :
    (adj.map f).find? (fun p => p.1 = u) =
      (adj.find? (fun p => p.1 = u)).map f := by
  induction adj with
  | nil => simp
  | cons a t ih =>
    by_cases h : a.1 = u
    · simp [List.find?, hf, h]
    · simp [List.find?, hf, h, ih]

theorem any_fst_iff (adj : Adj) (k : Node) :
    adj.any (fun p => p.1 = k) = true ↔ k ∈ keysOf adj := by
  simp only [List.any_eq_true, decide_eq_true_eq, keysOf, List.mem_map]

theorem legsOf_pushLeg (adj : Adj) (k : Node) (l : Leg) (u : Node) :
    legsOf (pushLeg adj k l) u = legsOf adj u ++ (if k = u then [l] else []) := by
  unfold pushLeg
  by_cases hp : adj.any (fun p => p.1 = k) = true
  · rw [if_pos hp]
    unfold legsOf
    rw [find?_map_fst adj _ (fun p => by by_cases h : p.1 = k <;> simp [h]) u]
    cases hfind : adj.find? (fun p => p.1 = u) with
    | none =>
      have hnotk : ¬ k = u := by
        rintro rfl
        obtain ⟨p, hpmem, hpk⟩ := List.any_eq_true.mp hp
        have := List.find?_eq_none.mp hfind p hpmem
        exact this hpk
      simp [hnotk]
    | some p =>
      have hpu : p.1 = u := by
        have := List.find?_some hfind
        simpa using this
      by_cases hk : k = u
      · subst hk
        simp [Option.map_some, hpu]
      · have : ¬ p.1 = k := by rw [hpu]; exact fun h => hk h.symm
        simp [Option.map_some, this, hk]
  · rw [if_neg hp]
    unfold legsOf
    rw [find?_append]
    cases hfind : adj.find? (fun p => p.1 = u) with
    | none =>
      by_cases hk : k = u
      · subst hk
        simp [List.find?]
      · simp [List.find?, hk]
    | some p =>
      have hpu : p.1 = u := by
        have := List.find?_some hfind
        simpa using this
      have hnotk : ¬ k = u := by
        rintro rfl
        exact hp (List.any_eq_true.mpr ⟨p, List.mem_of_find?_eq_some hfind, by simp [hpu]⟩)
      simp [hnotk]

/-- The two legs that a single stored edge contributes to a given key:
the forward leg when the key is the edge's `fromId`, and the reverse leg
when the key is its `toId` (both when the edge is a self loop). -/
def legsTo (u : Node) (e : EdgeRec) : List Leg :=
  (if e.fromId = u then [⟨e.toId, costOr1 e.cost, e.id⟩] else []) ++
    (if e.toId = u then [⟨e.fromId, costOr1 e.cost, e.id⟩] else [])

theorem legsOf_addEdge (adj : Adj) (e : EdgeRec) (u : Node) :
    legsOf (addEdge adj e) u = legsOf adj u ++ legsTo u e := by
  unfold addEdge legsTo
  rw [legsOf_pushLeg, legsOf_pushLeg, List.append_assoc]

/-- All legs contributed to key `u` by a list of edges, in order. -/
def legsFromEdges (u : Node) : List EdgeRec → List Leg
  | [] => []
  | e :: rest => legsTo u e ++ legsFromEdges u rest

theorem legsOf_foldl (es : List EdgeRec) (adj : Adj) (u : Node) :
    legsOf (es.foldl addEdge adj) u = legsOf adj u ++ legsFromEdges u es := by
  induction es generalizing adj with
  | nil => simp [legsFromEdges]
  | cons e rest ih =>
    rw [List.foldl_cons, ih, legsOf_addEdge, legsFromEdges, List.append_assoc]

theorem legsOf_buildAdj (es : List EdgeRec) (u : Node) :
    legsOf (buildAdj es) u = legsFromEdges u es := by
  rw [buildAdj, legsOf_foldl]
  simp [legsOf]

theorem mem_legsFromEdges {u : Node} {es : List EdgeRec} {l : Leg} :
    l ∈ legsFromEdges u es ↔ ∃ e ∈ es, l ∈ legsTo u e := by
  induction es with
  | nil => simp [legsFromEdges]
  | cons e rest ih =>
    simp only [legsFromEdges, List.mem_append, ih, List.mem_cons]
    constructor
    · rintro (h | ⟨f, hf, hl⟩)
      · exact ⟨e, Or.inl rfl, h⟩
      · exact ⟨f, Or.inr hf, hl⟩
    · rintro ⟨f, (rfl | hf), hl⟩
      · exact Or.inl hl
      · exact Or.inr ⟨f, hf, hl⟩

theorem mem_legsTo {u : Node} {e : EdgeRec} {l : Leg} :
    l ∈ legsTo u e ↔
      (e.fromId = u ∧ l = ⟨e.toId, costOr1 e.cost, e.id⟩) ∨
        (e.toId = u ∧ l = ⟨e.fromId, costOr1 e.cost, e.id⟩) := by
  unfold legsTo
  by_cases h1 : e.fromId = u <;> by_cases h2 : e.toId = u <;> simp [h1, h2]

theorem keysOf_map_fst (adj : Adj) (f : Node × List Leg → Node × List Leg)
    (hf : ∀ p, (f p).1 = p.1) : keysOf (adj.map f) = keysOf adj := by
  unfold keysOf
  rw [List.map_map]
  exact List.map_congr_left fun p _ => hf p

theorem keysOf_pushLeg (adj : Adj) (k : Node) (l : Leg) :
    keysOf (pushLeg adj k l) =
      if k ∈ keysOf adj then keysOf adj else keysOf adj ++ [k] := by
  unfold pushLeg
  by_cases hp : adj.any (fun p => p.1 = k) = true
  · rw [if_pos hp, if_pos ((any_fst_iff adj k).mp hp)]
    exact keysOf_map_fst adj _ fun p => by by_cases h : p.1 = k <;> simp [h]
  · rw [if_neg hp, if_neg (fun h => hp ((any_fst_iff adj k).mpr h))]
    simp [keysOf]

theorem mem_keysOf_pushLeg (adj : Adj) (k : Node) (l : Leg) (u : Node) :
    u ∈ keysOf (pushLeg adj k l) ↔ u ∈ keysOf adj ∨ u = k := by
  rw [keysOf_pushLeg]
  by_cases h : k ∈ keysOf adj
  · rw [if_pos h]
    constructor
    · exact Or.inl
    · rintro (hu | rfl)
      · exact hu
      · exact h
  · rw [if_neg h]
    simp

theorem nodup_keysOf_pushLeg {adj : Adj} (hn : (keysOf adj).Nodup)
    (k : Node) (l : Leg) : (keysOf (pushLeg adj k l)).Nodup := by
  rw [keysOf_pushLeg]
  by_cases h : k ∈ keysOf adj
  · rwa [if_pos h]
  · rw [if_neg h]
    simpa [List.nodup_append] using ⟨hn, fun hk => h hk⟩

theorem mem_keysOf_addEdge (adj : Adj) (e : EdgeRec) (u : Node) :
    u ∈ keysOf (addEdge adj e) ↔ u ∈ keysOf adj ∨ u = e.fromId ∨ u = e.toId := by
  unfold addEdge
  rw [mem_keysOf_pushLeg, mem_keysOf_pushLeg]
  tauto

theorem nodup_keysOf_addEdge {adj : Adj} (hn : (keysOf adj).Nodup)
    (e : EdgeRec) : (keysOf (addEdge adj e)).Nodup :=
  nodup_keysOf_pushLeg (nodup_keysOf_pushLeg hn _ _) _ _

theorem nodup_keysOf_foldl (es : List EdgeRec) {adj : Adj}
    (hn : (keysOf adj).Nodup) : (keysOf (es.foldl addEdge adj)).Nodup := by
  induction es generalizing adj with
  | nil => exact hn
  | cons e rest ih => exact ih (nodup_keysOf_addEdge hn e)

theorem nodup_keysOf_buildAdj (es : List EdgeRec) :
    (keysOf (buildAdj es)).Nodup :=
  nodup_keysOf_foldl es (by simp [keysOf])

theorem mem_keysOf_foldl (es : List EdgeRec) (adj : Adj) (u : Node) :
    u ∈ keysOf (es.foldl addEdge adj) ↔
      u ∈ keysOf adj ∨ ∃ e ∈ es, u = e.fromId ∨ u = e.toId := by
  induction es generalizing adj with
  | nil => simp
  | cons e rest ih =>
    rw [List.foldl_cons, ih, mem_keysOf_addEdge]
    simp only [List.mem_cons]
    constructor
    · rintro ((h | h | h) | ⟨f, hf, hu⟩)
      · exact Or.inl h
      · exact Or.inr ⟨e, Or.inl rfl, Or.inl h⟩
      · exact Or.inr ⟨e, Or.inl rfl, Or.inr h⟩
      · exact Or.inr ⟨f, Or.inr hf, hu⟩
    · rintro (h | ⟨f, (rfl | hf), hu⟩)
      · exact Or.inl (Or.inl h)
      · exact Or.inl (Or.inr hu)
      · exact Or.inr ⟨f, hf, hu⟩

theorem mem_keysOf_buildAdj (es : List EdgeRec) (u : Node) :
    u ∈ keysOf (buildAdj es) ↔ ∃ e ∈ es, u = e.fromId ∨ u = e.toId := by
  rw [buildAdj, mem_keysOf_foldl]
  simp [keysOf]

theorem costOr1_pos (c : Option Nat) : 1 ≤ costOr1 c := by
  cases c with
  | none => simp [costOr1]
  | some n =>
    by_cases h : n = 0
    · simp [costOr1, h]
    · simp only [costOr1, if_neg h]
      omega

theorem buildAdj_pos (es : List EdgeRec) : AdjPos (buildAdj es) := by
  intro u l hl
  rw [legsOf_buildAdj] at hl
  obtain ⟨e, -, hle⟩ := mem_legsFromEdges.mp hl
  rcases mem_legsTo.mp hle with ⟨-, rfl⟩ | ⟨-, rfl⟩ <;> exact costOr1_pos e.cost

theorem buildAdj_wf (es : List EdgeRec) : AdjWF (buildAdj es) := by
  intro u l hl
  rw [legsOf_buildAdj] at hl
  obtain ⟨e, he, hle⟩ := mem_legsFromEdges.mp hl
  rw [mem_keysOf_buildAdj]
  rcases mem_legsTo.mp hle with ⟨-, rfl⟩ | ⟨-, rfl⟩
  · exact ⟨e, he, Or.inr rfl⟩
  · exact ⟨e, he, Or.inl rfl⟩

theorem hasLeg_buildAdj_iff {es : List EdgeRec} {u v : Node} {c : Nat} :
    HasLeg (buildAdj es) u v c ↔
      ∃ e ∈ es, ((e.fromId = u ∧ e.toId = v) ∨ (e.toId = u ∧ e.fromId = v)) ∧
        c = costOr1 e.cost := by
  unfold HasLeg
  constructor
  · rintro ⟨l, hl, hto, hcost⟩
    rw [legsOf_buildAdj] at hl
    obtain ⟨e, he, hle⟩ := mem_legsFromEdges.mp hl
    rcases mem_legsTo.mp hle with ⟨hf, rfl⟩ | ⟨hf, rfl⟩
    · exact ⟨e, he, Or.inl ⟨hf, hto⟩, hcost.symm⟩
    · exact ⟨e, he, Or.inr ⟨hf, hto⟩, hcost.symm⟩
  · rintro ⟨e, he, hor, rfl⟩
    rcases hor with ⟨hf, ht⟩ | ⟨ht, hf⟩
    · refine ⟨⟨e.toId, costOr1 e.cost, e.id⟩, ?_, ht, rfl⟩
      rw [legsOf_buildAdj]
      exact mem_legsFromEdges.mpr ⟨e, he, mem_legsTo.mpr (Or.inl ⟨hf, rfl⟩)⟩
    · refine ⟨⟨e.fromId, costOr1 e.cost, e.id⟩, ?_, hf, rfl⟩
      rw [legsOf_buildAdj]
      exact mem_legsFromEdges.mpr ⟨e, he, mem_legsTo.mpr (Or.inr ⟨ht, rfl⟩)⟩

theorem hasLeg_buildAdj_symm {es : List EdgeRec} {u v : Node} {c : Nat} :
    HasLeg (buildAdj es) u v c ↔ HasLeg (buildAdj es) v u c := by
  rw [hasLeg_buildAdj_iff, hasLeg_buildAdj_iff]
  constructor
  all_goals
    rintro ⟨e, he, hor, rfl⟩
    exact ⟨e, he, hor.symm.imp And.symm And.symm, rfl⟩

/-! Behaviour of the linear-scan extract-min. -/

theorem extractMinAux_le_acc (dist : Node → Option Nat) (l : List Node)
    (acc : Option Node × Option Nat) :
    toE (extractMinAux dist l acc).2 ≤ toE acc.2 := by
  induction l generalizing acc with
  | nil => exact le_refl _
  | cons v rest ih =>
    by_cases h : ltD (dist v) acc.2 = true
    · calc toE (extractMinAux dist (v :: rest) acc).2
          ≤ toE (dist v) := by
            simpa [extractMinAux, h] using ih (some v, dist v)
        _ ≤ toE acc.2 := le_of_lt ((ltD_iff _ _).mp h)
    · simpa [extractMinAux, h] using ih acc

theorem extractMinAux_le_mem (dist : Node → Option Nat) (l : List Node)
    (acc : Option Node × Option Nat) :
    ∀ v ∈ l, toE (extractMinAux dist l acc).2 ≤ toE (dist v) := by
  induction l generalizing acc with
  | nil => intro v hv; exact absurd hv (List.not_mem_nil v)
  | cons w rest ih =>
    intro v hv
    rcases List.mem_cons.mp hv with rfl | hv
    · by_cases h : ltD (dist v) acc.2 = true
      · simpa [extractMinAux, h] using extractMinAux_le_acc dist rest (some v, dist v)
      · calc toE (extractMinAux dist (v :: rest) acc).2
            ≤ toE acc.2 := by simpa [extractMinAux, h] using extractMinAux_le_acc dist rest acc
          _ ≤ toE (dist v) := (ltD_false_iff _ _).mp (Bool.not_eq_true _ ▸ h)
    · by_cases h : ltD (dist w) acc.2 = true
      · simpa [extractMinAux, h] using ih (some w, dist w) v hv
      · simpa [extractMinAux, h] using ih acc v hv

theorem extractMinAux_cases (dist : Node → Option Nat) (l : List Node)
    (acc : Option Node × Option Nat) :
    (extractMinAux dist l acc = acc ∧ ∀ v ∈ l, ltD (dist v) acc.2 = false) ∨
      ∃ v ∈ l, (extractMinAux dist l acc).1 = some v ∧
        (extractMinAux dist l acc).2 = dist v ∧ dist v ≠ none := by
  induction l generalizing acc with
  | nil => exact Or.inl ⟨rfl, by simp⟩
  | cons w rest ih =>
    by_cases h : ltD (dist w) acc.2 = true
    · have hw : dist w ≠ none := by
        intro hnone
        rw [hnone] at h
        exact absurd h (by simp [ltD])
      rcases ih (some w, dist w) with ⟨heq, -⟩ | ⟨v, hv, h1, h2, h3⟩
      · refine Or.inr ⟨w, List.mem_cons_self w rest, ?_, ?_, hw⟩
        · simp [extractMinAux, h, heq]
        · simp [extractMinAux, h, heq]
      · exact Or.inr ⟨v, List.mem_cons_of_mem w hv,
          by simpa [extractMinAux, h] using h1,
          by simpa [extractMinAux, h] using h2, h3⟩
    · rcases ih acc with ⟨heq, hall⟩ | ⟨v, hv, h1, h2, h3⟩
      · refine Or.inl ⟨by simpa [extractMinAux, h] using heq, ?_⟩
        intro v hv
        rcases List.mem_cons.mp hv with rfl | hv
        · exact Bool.not_eq_true _ ▸ h
        · exact hall v hv
      · exact Or.inr ⟨v, List.mem_cons_of_mem w hv,
          by simpa [extractMinAux, h] using h1,
          by simpa [extractMinAux, h] using h2, h3⟩

theorem extractMin_spec_some {dist : Node → Option Nat} {pq : List Node} {u : Node}
    (h : extractMin dist pq = some u) :
    u ∈ pq ∧ (∃ d, dist u = some d) ∧
      ∀ v ∈ pq, toE (dist u) ≤ toE (dist v) := by
  unfold extractMin at h
  rcases extractMinAux_cases dist pq (none, none) with ⟨heq, -⟩ | ⟨v, hv, h1, h2, h3⟩
  · rw [heq] at h
    exact absurd h (by simp)
  · rw [h1] at h
    obtain rfl : v = u := Option.some.inj h
    refine ⟨hv, ?_, ?_⟩
    · cases hd : dist v with
      | none => exact absurd hd h3
      | some d => exact ⟨d, rfl⟩
    · intro w hw
      have := extractMinAux_le_mem dist pq (none, none) w hw
      rwa [h2] at this

theorem extractMin_none {dist : Node → Option Nat} {pq : List Node}
    (h : extractMin dist pq = none) :
    ∀ v ∈ pq, dist v = none := by
  unfold extractMin at h
  rcases extractMinAux_cases dist pq (none, none) with ⟨-, hall⟩ | ⟨v, -, h1, -, -⟩
  · intro v hv
    have htop : toE (none : Option Nat) ≤ toE (dist v) :=
      (ltD_false_iff (dist v) none).mp (hall v hv)
    have : toE (dist v) = ⊤ := top_le_iff.mp htop
    exact (toE_eq_top_iff (dist v)).mp this
  · rw [h1] at h
    exact absurd h (by simp)

/-! Behaviour of the relaxation pass. -/

theorem relaxList_dist_le (u : Node) (du : Nat) (legs : List Leg)
    (dist : Node → Option Nat) (prev : Node → Option Node) (x : Node) :
    toE ((relaxList u du legs dist prev).1 x) ≤ toE (dist x) := by
  induction legs generalizing dist prev with
  | nil => exact le_refl _
  | cons e rest ih =>
    by_cases h : ltD (some (du + e.cost)) (dist e.«to») = true
    · have step : toE (if x = e.«to» then some (du + e.cost) else dist x) ≤ toE (dist x) := by
        by_cases hx : x = e.«to»
        · subst hx
          simpa using le_of_lt ((ltD_iff _ _).mp h)
        · simp [hx]
      calc toE ((relaxList u du (e :: rest) dist prev).1 x)
          ≤ toE (if x = e.«to» then some (du + e.cost) else dist x) := by
            simpa [relaxList, h] using
              ih (fun y => if y = e.«to» then some (du + e.cost) else dist y)
                (fun y => if y = e.«to» then some u else prev y)
        _ ≤ toE (dist x) := step
    · simpa [relaxList, h] using ih dist prev

theorem relaxList_cases (u : Node) (du : Nat) (legs : List Leg)
    (dist : Node → Option Nat) (prev : Node → Option Node) (x : Node) :
    ((relaxList u du legs dist prev).1 x = dist x ∧
      (relaxList u du legs dist prev).2 x = prev x) ∨
    ∃ l ∈ legs, l.«to» = x ∧
      (relaxList u du legs dist prev).1 x = some (du + l.cost) ∧
      (relaxList u du legs dist prev).2 x = some u ∧
      ltD (some (du + l.cost)) (dist x) = true := by
  induction legs generalizing dist prev with
  | nil => exact Or.inl ⟨rfl, rfl⟩
  | cons e rest ih =>
    by_cases h : ltD (some (du + e.cost)) (dist e.«to») = true
    · have hrec := ih (fun y => if y = e.«to» then some (du + e.cost) else dist y)
        (fun y => if y = e.«to» then some u else prev y)
      by_cases hx : x = e.«to»
      · subst hx
        rcases hrec with ⟨h1, h2⟩ | ⟨l, hl, hto, h1, h2, h3⟩
        · refine Or.inr ⟨e, List.mem_cons_self e rest, rfl, ?_, ?_, h⟩
          · simpa [relaxList, h] using h1
          · simpa [relaxList, h] using h2
        · refine Or.inr ⟨l, List.mem_cons_of_mem e hl, hto, ?_, ?_, ?_⟩
          · simpa [relaxList, h] using h1
          · simpa [relaxList, h] using h2
          · simp only [if_pos rfl] at h3
            exact (ltD_iff _ _).mpr (lt_trans ((ltD_iff _ _).mp h3) ((ltD_iff _ _).mp h))
      · rcases hrec with ⟨h1, h2⟩ | ⟨l, hl, hto, h1, h2, h3⟩
        · refine Or.inl ⟨?_, ?_⟩
          · simpa [relaxList, h, hx] using h1
          · simpa [relaxList, h, hx] using h2
        · refine Or.inr ⟨l, List.mem_cons_of_mem e hl, hto, ?_, ?_, ?_⟩
          · simpa [relaxList, h] using h1
          · simpa [relaxList, h] using h2
          · rwa [if_neg hx] at h3
    · rcases ih dist prev with ⟨h1, h2⟩ | ⟨l, hl, hto, h1, h2, h3⟩
      · exact Or.inl ⟨by simpa [relaxList, h] using h1, by simpa [relaxList, h] using h2⟩
      · exact Or.inr ⟨l, List.mem_cons_of_mem e hl, hto,
          by simpa [relaxList, h] using h1, by simpa [relaxList, h] using h2, h3⟩

theorem relaxList_relaxed (u : Node) (du : Nat) (legs : List Leg)
    (dist : Node → Option Nat) (prev : Node → Option Node) :
    ∀ l ∈ legs, toE ((relaxList u du legs dist prev).1 l.«to»)
      ≤ ((du + l.cost : Nat) : WithTop Nat) := by
  induction legs generalizing dist prev with
  | nil => intro l hl; exact absurd hl (List.not_mem_nil l)
  | cons e rest ih =>
    intro l hl
    by_cases h : ltD (some (du + e.cost)) (dist e.«to») = true
    · rcases List.mem_cons.mp hl with rfl | hl
      · calc toE ((relaxList u du (l :: rest) dist prev).1 l.«to»)
            ≤ toE (if l.«to» = l.«to» then some (du + l.cost) else dist l.«to») := by
              simpa [relaxList, h] using relaxList_dist_le u du rest
                (fun y => if y = l.«to» then some (du + l.cost) else dist y)
                (fun y => if y = l.«to» then some u else prev y) l.«to»
          _ ≤ ((du + l.cost : Nat) : WithTop Nat) := by simp [toE]
      · simpa [relaxList, h] using
          ih (fun y => if y = e.«to» then some (du + e.cost) else dist y)
            (fun y => if y = e.«to» then some u else prev y) l hl
    · rcases List.mem_cons.mp hl with rfl | hl
      · calc toE ((relaxList u du (l :: rest) dist prev).1 l.«to»)
            ≤ toE (dist l.«to») := by
              simpa [relaxList, h] using relaxList_dist_le u du rest dist prev l.«to»
          _ ≤ ((du + l.cost : Nat) : WithTop Nat) :=
              (ltD_false_iff (some (du + l.cost)) (dist l.«to»)).mp
                (Bool.not_eq_true _ ▸ h)
      · simpa [relaxList, h] using ih dist prev l hl

@[simp]
theorem toE_some (n : Nat) : toE (some n) = (n : WithTop Nat) :=
  rfl

@[simp]
theorem toE_none : toE none = (⊤ : WithTop Nat) :=
  rfl

/-! The loop invariant of the search: the frontier is a duplicate-free
subset of the keys; tentative distances are realised by walks; extracted
(settled) nodes carry their exact shortest distance and have all their
legs relaxed; the predecessor map records, for each finitely-labelled
node, the settled neighbour and leg that produced its current label. -/

structure LoopInv (adj : Adj) (start : Node) (pq : List Node)
    (dist : Node → Option Nat) (prev : Node → Option Node) : Prop where
  pq_sub : ∀ x ∈ pq, x ∈ keysOf adj
  pq_nodup : pq.Nodup
  start_key : start ∈ keysOf adj
  dist_start : dist start = some 0
  dist_sound : ∀ x d, dist x = some d → WalkFrom adj start x d
  settled_some : ∀ x ∈ keysOf adj, x ∉ pq → dist x ≠ none
  settled_min : ∀ x ∈ keysOf adj, x ∉ pq → ∀ d, WalkFrom adj start x d →
    toE (dist x) ≤ (d : WithTop Nat)
  settled_relaxed : ∀ x ∈ keysOf adj, x ∉ pq → ∀ v c, HasLeg adj x v c → ∀ dx,
    dist x = some dx → toE (dist v) ≤ ((dx + c : Nat) : WithTop Nat)
  prev_settled : ∀ x w, prev x = some w → w ∈ keysOf adj ∧ w ∉ pq
  prev_link : ∀ x w, prev x = some w →
    ∃ c dw, HasLeg adj w x c ∧ dist w = some dw ∧ dist x = some (dw + c)
  prev_none_start : ∀ x d, dist x = some d → prev x = none → x = start

/-- Any walk from a settled node to a frontier node passes a frontier node
whose tentative distance is at most the settled label plus the walk cost. -/
theorem crossing {adj : Adj} {start : Node} {pq : List Node}
    {dist : Node → Option Nat} {prev : Node → Option Node}
    (inv : LoopInv adj start pq dist prev) :
    ∀ {l : List Node} {d : Nat}, WalkL adj l d → ∀ x z dx,
      l.head? = some x → l.getLast? = some z → x ∈ keysOf adj → x ∉ pq →
      z ∈ pq → dist x = some dx →
      ∃ y ∈ pq, toE (dist y) ≤ ((dx + d : Nat) : WithTop Nat) := by
  intro l d hw
  induction hw with
  | single w =>
    intro x z dx hh hl hxk hxp hzp hdx
    obtain rfl := Option.some.inj hh
    obtain rfl := Option.some.inj hl
    exact absurd hzp hxp
  | @cons a b c dtail ltail hleg htail ih =>
    intro x z dx hh hl hxk hxp hzp hdx
    obtain rfl := Option.some.inj hh
    have hl2 : (b :: ltail).getLast? = some z := by
      rwa [List.getLast?_cons_cons] at hl
    have hrel : toE (dist b) ≤ ((dx + c : Nat) : WithTop Nat) :=
      inv.settled_relaxed a hxk hxp b c hleg dx hdx
    by_cases hbp : b ∈ pq
    · refine ⟨b, hbp, le_trans hrel ?_⟩
      exact_mod_cast Nat.add_le_add_left (Nat.le_add_right c dtail) dx
    · have hbk : b ∈ keysOf adj := by
        cases ltail with
        | nil =>
          obtain rfl : b = z := Option.some.inj hl2
          exact absurd hzp hbp
        | cons w lt2 =>
          cases htail with
          | cons hleg2 _ => exact hasLeg_mem_keys hleg2
      obtain ⟨db, hdb⟩ : ∃ db, dist b = some db := by
        cases hdist : dist b with
        | none => exact absurd hdist (inv.settled_some b hbk hbp)
        | some db => exact ⟨db, rfl⟩
      have hdb_le : db ≤ dx + c := by
        rw [hdb, toE_some] at hrel
        exact_mod_cast hrel
      obtain ⟨y, hy, hley⟩ := ih b z db rfl hl2 hbk hbp hzp hdb
      refine ⟨y, hy, le_trans hley ?_⟩
      have : db + dtail ≤ dx + (c + dtail) := by omega
      exact_mod_cast this

/-- The node returned by extract-min carries a label no larger than the
cost of any walk from the start to it. -/
theorem extracted_min {adj : Adj} {start : Node} {pq : List Node}
    {dist : Node → Option Nat} {prev : Node → Option Node} {u : Node}
    (inv : LoopInv adj start pq dist prev)
    (hu : extractMin dist pq = some u) :
    ∀ d, WalkFrom adj start u d → toE (dist u) ≤ (d : WithTop Nat) := by
  intro d hwalk
  obtain ⟨hupq, ⟨du, hdu⟩, hmin⟩ := extractMin_spec_some hu
  by_cases hs : start ∈ pq
  · have h1 : toE (dist u) ≤ toE (dist start) := hmin start hs
    rw [inv.dist_start, toE_some] at h1
    exact le_trans h1 (by exact_mod_cast Nat.zero_le d)
  · obtain ⟨l, hw, hh, hl⟩ := hwalk
    obtain ⟨y, hy, hle⟩ :=
      crossing inv hw start u 0 hh hl inv.start_key hs hupq inv.dist_start
    refine le_trans (hmin y hy) (le_trans hle ?_)
    exact_mod_cast Nat.le_of_eq (Nat.zero_add d)

/-- Extracting the minimum frontier node and relaxing its legs preserves
the loop invariant. -/
theorem step_preserves {adj : Adj} {start : Node} {pq : List Node}
    {dist : Node → Option Nat} {prev : Node → Option Node} {u : Node} {du : Nat}
    (inv : LoopInv adj start pq dist prev)
    (hu : extractMin dist pq = some u)
    (hdu : dist u = some du) :
    LoopInv adj start (pq.erase u)
      (relaxList u du (legsOf adj u) dist prev).1
      (relaxList u du (legsOf adj u) dist prev).2 := by
  obtain ⟨hupq, -, hmin⟩ := extractMin_spec_some hu
  have huk : u ∈ keysOf adj := inv.pq_sub u hupq
  have humin : ∀ d, WalkFrom adj start u d → toE (dist u) ≤ (d : WithTop Nat) :=
    extracted_min inv hu
  set dist2 := (relaxList u du (legsOf adj u) dist prev).1 with hdist2def
  set prev2 := (relaxList u du (legsOf adj u) dist prev).2 with hprev2def
  have hcases : ∀ x, (dist2 x = dist x ∧ prev2 x = prev x) ∨
      ∃ c, HasLeg adj u x c ∧ dist2 x = some (du + c) ∧ prev2 x = some u ∧
        ltD (some (du + c)) (dist x) = true := by
    intro x
    rcases relaxList_cases u du (legsOf adj u) dist prev x with h | ⟨l, hl, hto, h1, h2, h3⟩
    · exact Or.inl h
    · exact Or.inr ⟨l.cost, ⟨l, hl, hto, rfl⟩, h1, h2, h3⟩
  have hkeep : ∀ y, y ∈ keysOf adj → (y ∉ pq ∨ y = u) →
      dist2 y = dist y ∧ prev2 y = prev y := by
    intro y hyk hy
    rcases hcases y with h | ⟨c, hleg, h1, h2, h3⟩
    · exact h
    · exfalso
      have hwalk : WalkFrom adj start y (du + c) :=
        walkFrom_snoc (inv.dist_sound u du hdu) hleg
      have hlt := (ltD_iff _ _).mp h3
      rw [toE_some] at hlt
      rcases hy with hy | rfl
      · have hle := inv.settled_min y hyk hy (du + c) hwalk
        exact absurd (lt_of_lt_of_le hlt hle) (lt_irrefl _)
      · rw [hdu, toE_some] at hlt
        have : du + c < du := by exact_mod_cast hlt
        omega
  have hd2u : dist2 u = some du := by
    rw [(hkeep u huk (Or.inr rfl)).1, hdu]
  have hsplit : ∀ x, x ∉ pq.erase u → (x ∉ pq ∨ x = u) := by
    intro x hx
    by_cases hxu : x = u
    · exact Or.inr hxu
    · refine Or.inl fun hxpq => hx ?_
      exact (List.mem_erase_of_ne hxu).mpr hxpq
  refine ⟨?_, inv.pq_nodup.erase u, inv.start_key, ?_, ?_, ?_, ?_, ?_, ?_, ?_, ?_⟩
  · exact fun x hx => inv.pq_sub x (List.mem_of_mem_erase hx)
  · -- dist_start
    rcases hcases start with h | ⟨c, -, -, -, h3⟩
    · rw [h.1, inv.dist_start]
    · exfalso
      rw [inv.dist_start] at h3
      have := (ltD_iff _ _).mp h3
      rw [toE_some, toE_some] at this
      have : du + c < 0 := by exact_mod_cast this
      omega
  · -- dist_sound
    intro x d hx
    rcases hcases x with h | ⟨c, hleg, h1, -, -⟩
    · exact inv.dist_sound x d (h.1 ▸ hx)
    · rw [h1] at hx
      obtain rfl : du + c = d := Option.some.inj hx
      exact walkFrom_snoc (inv.dist_sound u du hdu) hleg
  · -- settled_some
    intro x hxk hx
    rcases hsplit x hx with hxpq | rfl
    · rw [(hkeep x hxk (Or.inl hxpq)).1]
      exact inv.settled_some x hxk hxpq
    · rw [hd2u]
      exact Option.some_ne_none du
  · -- settled_min
    intro x hxk hx d hwalk
    rcases hsplit x hx with hxpq | rfl
    · rw [(hkeep x hxk (Or.inl hxpq)).1]
      exact inv.settled_min x hxk hxpq d hwalk
    · rw [(hkeep x hxk (Or.inr rfl)).1]
      exact humin d hwalk
  · -- settled_relaxed
    intro x hxk hx v c hleg dx hdx
    rcases hsplit x hx with hxpq | rfl
    · have hxeq := (hkeep x hxk (Or.inl hxpq)).1
      rw [hxeq] at hdx
      calc toE (dist2 v) ≤ toE (dist v) := relaxList_dist_le u du (legsOf adj u) dist prev v
        _ ≤ ((dx + c : Nat) : WithTop Nat) :=
            inv.settled_relaxed x hxk hxpq v c hleg dx hdx
    · have hdud : du = dx := Option.some.inj (hd2u ▸ hdx)
      obtain ⟨l, hl, hto, hcost⟩ := hleg
      have hrr := relaxList_relaxed x du (legsOf adj x) dist prev l hl
      rw [hto, hcost] at hrr
      rw [← hdud]
      exact hrr
  · -- prev_settled
    intro x w hx
    rcases hcases x with h | ⟨c, -, -, h2, -⟩
    · obtain ⟨hwk, hwpq⟩ := inv.prev_settled x w (h.2 ▸ hx)
      exact ⟨hwk, fun hmem => hwpq (List.mem_of_mem_erase hmem)⟩
    · obtain rfl : u = w := Option.some.inj (h2 ▸ hx)
      exact ⟨huk, inv.pq_nodup.not_mem_erase⟩
  · -- prev_link
    intro x w hx
    rcases hcases x with h | ⟨c, hleg, h1, h2, -⟩
    · obtain ⟨c, dw, hleg, hdw, hdx⟩ := inv.prev_link x w (h.2 ▸ hx)
      obtain ⟨hwk, hwpq⟩ := inv.prev_settled x w (h.2 ▸ hx)
      refine ⟨c, dw, hleg, ?_, ?_⟩
      · rw [(hkeep w hwk (Or.inl hwpq)).1]
        exact hdw
      · rw [h.1]
        exact hdx
    · obtain rfl : u = w := Option.some.inj (h2 ▸ hx)
      exact ⟨c, du, hleg, hd2u, h1⟩
  · -- prev_none_start
    intro x d hxd hxn
    rcases hcases x with h | ⟨c, -, -, h2, -⟩
    · exact inv.prev_none_start x d (h.1 ▸ hxd) (h.2 ▸ hxn)
    · rw [h2] at hxn
      exact absurd hxn (Option.some_ne_none u)

/-- Master lemma for the search loop: given enough fuel and a valid
invariant, the loop ends in a state that still satisfies the invariant and
at which extract-min either fails or would return the goal. -/
theorem dijkstraLoop_spec (adj : Adj) (goal : Node) :
    ∀ fuel (pq : List Node) (dist : Node → Option Nat)
      (prev : Node → Option Node) (start : Node),
      pq.length ≤ fuel → LoopInv adj start pq dist prev →
      ∃ pq2,
        LoopInv adj start pq2 (dijkstraLoop adj goal fuel pq dist prev).1
          (dijkstraLoop adj goal fuel pq dist prev).2 ∧
        (extractMin (dijkstraLoop adj goal fuel pq dist prev).1 pq2 = none ∨
          extractMin (dijkstraLoop adj goal fuel pq dist prev).1 pq2 = some goal) := by
  intro fuel
  induction fuel with
  | zero =>
    intro pq dist prev start hlen inv
    have hpq : pq = [] := List.length_eq_zero.mp (Nat.le_zero.mp hlen)
    subst hpq
    exact ⟨[], inv, Or.inl rfl⟩
  | succ fuel ih =>
    intro pq dist prev start hlen inv
    cases hext : extractMin dist pq with
    | none =>
      have hres : dijkstraLoop adj goal (fuel + 1) pq dist prev = (dist, prev) := by
        simp [dijkstraLoop, hext]
      rw [hres]
      exact ⟨pq, inv, Or.inl hext⟩
    | some u =>
      by_cases hgoal : u = goal
      · subst hgoal
        have hres : dijkstraLoop adj u (fuel + 1) pq dist prev = (dist, prev) := by
          simp [dijkstraLoop, hext]
        rw [hres]
        exact ⟨pq, inv, Or.inr hext⟩
      · obtain ⟨hupq, ⟨du, hdu⟩, -⟩ := extractMin_spec_some hext
        have hres : dijkstraLoop adj goal (fuel + 1) pq dist prev =
            dijkstraLoop adj goal fuel (pq.erase u)
              (relaxList u du (legsOf adj u) dist prev).1
              (relaxList u du (legsOf adj u) dist prev).2 := by
          simp [dijkstraLoop, hext, hgoal, hdu]
        rw [hres]
        have hlen2 : (pq.erase u).length ≤ fuel := by
          have := List.length_erase_add_one hupq
          omega
        exact ih (pq.erase u) _ _ start hlen2 (step_preserves inv hext hdu)

/-- The invariant holds at the start of the search. -/
theorem initial_inv (adj : Adj) (start : Node)
    (hnodup : (keysOf adj).Nodup) (hstart : start ∈ keysOf adj) :
    LoopInv adj start (keysOf adj)
      (fun x => if x = start then some 0 else none) (fun _ => none) := by
  refine ⟨fun x hx => hx, hnodup, hstart, if_pos rfl, ?_, ?_, ?_, ?_, ?_, ?_, ?_⟩
  · intro x d hx
    by_cases h : x = start
    · subst h
      rw [if_pos rfl] at hx
      obtain rfl : (0 : Nat) = d := Option.some.inj hx
      exact walkFrom_refl adj x
    · rw [if_neg h] at hx
      exact absurd hx (Option.noConfusion)
  · intro x hxk hx
    exact absurd hxk hx
  · intro x hxk hx
    exact absurd hxk hx
  · intro x hxk hx
    exact absurd hxk hx
  · intro x w hx
    exact absurd hx (Option.noConfusion)
  · intro x w hx
    exact absurd hx (Option.noConfusion)
  · intro x d hx hp
    by_cases h : x = start
    · exact h
    · rw [if_neg h] at hx
      exact absurd hx (Option.noConfusion)

/-- The state after `dijkstraRun` satisfies the invariant, with the loop
genuinely finished. -/
theorem dijkstraRun_spec (adj : Adj) (start goal : Node)
    (hnodup : (keysOf adj).Nodup) (hstart : start ∈ keysOf adj) :
    ∃ pq2,
      LoopInv adj start pq2 (dijkstraRun adj start goal).1
        (dijkstraRun adj start goal).2 ∧
      (extractMin (dijkstraRun adj start goal).1 pq2 = none ∨
        extractMin (dijkstraRun adj start goal).1 pq2 = some goal) :=
  dijkstraLoop_spec adj goal (keysOf adj).length (keysOf adj) _ _ start
    (le_refl _) (initial_inv adj start hnodup hstart)

/-- In a finished state, the goal's final label is a lower bound on every
walk cost, and it is finite whenever the goal is reachable. -/
theorem finalState_goal {adj : Adj} {start goal : Node} {pq2 : List Node}
    {distF : Node → Option Nat} {prevF : Node → Option Node}
    (inv : LoopInv adj start pq2 distF prevF)
    (hterm : extractMin distF pq2 = none ∨ extractMin distF pq2 = some goal)
    (hgk : goal ∈ keysOf adj) :
    (∀ d, distF goal = some d → ∀ d2, WalkFrom adj start goal d2 → d ≤ d2) ∧
      (Reach adj start goal → distF goal ≠ none) := by
  constructor
  · intro d hd d2 hwalk
    rcases hterm with hterm | hterm
    · by_cases hgp : goal ∈ pq2
      · exact absurd hd (by rw [extractMin_none hterm goal hgp]; exact Option.noConfusion)
      · have := inv.settled_min goal hgk hgp d2 hwalk
        rw [hd, toE_some] at this
        exact_mod_cast this
    · have := extracted_min inv hterm d2 hwalk
      rw [hd, toE_some] at this
      exact_mod_cast this
  · rintro ⟨d2, hwalk⟩ hnone
    rcases hterm with hterm | hterm
    · by_cases hgp : goal ∈ pq2
      · by_cases hsp : start ∈ pq2
        · have h0 := inv.dist_start
          rw [extractMin_none hterm start hsp] at h0
          exact Option.noConfusion h0
        · obtain ⟨l, hw, hh, hl⟩ := hwalk
          obtain ⟨y, hy, hley⟩ :=
            crossing inv hw start goal 0 hh hl inv.start_key hsp hgp inv.dist_start
          rw [extractMin_none hterm y hy, toE_none] at hley
          exact absurd (top_le_iff.mp hley) (WithTop.coe_ne_top)
      · exact inv.settled_some goal hgk hgp hnone
    · obtain ⟨-, ⟨d, hd⟩, -⟩ := extractMin_spec_some hterm
      rw [hnone] at hd
      exact Option.noConfusion hd

theorem buildPath_nullCur (prev : Node → Option Node) :
    ∀ fuel acc, buildPath prev fuel none acc = some acc := by
  intro fuel acc
  cases fuel <;> rfl

/-- Following the predecessor chain from a finitely-labelled key yields a
duplicate-free walk from the start, realising exactly the node's label,
and the reconstruction loop produces it within fuel equal to its length. -/
theorem prevChain {adj : Adj} {start : Node} {pq : List Node}
    {dist : Node → Option Nat} {prev : Node → Option Node}
    (hpos : AdjPos adj)
    (inv : LoopInv adj start pq dist prev)
    (hne : "" ∉ keysOf adj) :
    ∀ dx x, dist x = some dx → x ∈ keysOf adj →
      ∃ p, WalkL adj p dx ∧ p.head? = some start ∧ p.getLast? = some x ∧
        p.Nodup ∧ (∀ y ∈ p, y ∈ keysOf adj ∧ ∃ dy, dist y = some dy ∧ dy ≤ dx) ∧
        ∀ fuel acc, p.length ≤ fuel → buildPath prev fuel (some x) acc = some (p ++ acc) := by
  intro dx
  induction dx using Nat.strong_induction_on with
  | _ dx ih =>
    intro x hx hxk
    have hxne : x ≠ "" := fun h => hne (h ▸ hxk)
    cases hp : prev x with
    | none =>
      obtain rfl : x = start := inv.prev_none_start x dx hx hp
      obtain rfl : dx = 0 := by
        have := inv.dist_start
        rw [hx] at this
        exact Option.some.inj this
      refine ⟨[x], WalkL.single x, rfl, rfl, List.nodup_singleton x, ?_, ?_⟩
      · intro y hy
        obtain rfl : y = x := List.mem_singleton.mp hy
        exact ⟨hxk, 0, hx, le_refl 0⟩
      · intro fuel acc hf
        cases fuel with
        | zero => exact absurd hf (by simp)
        | succ f =>
          show buildPath prev (f + 1) (some x) acc = some ([x] ++ acc)
          rw [buildPath, if_neg hxne, hp, buildPath_nullCur]
          simp
    | some w =>
      obtain ⟨c, dw, hleg, hdw, hdxeq⟩ := inv.prev_link x w hp
      obtain rfl : dx = dw + c := by
        rw [hx] at hdxeq
        exact Option.some.inj hdxeq.symm |>.symm
      have hcpos : 1 ≤ c := by
        obtain ⟨l, hl, -, hcost⟩ := hleg
        exact hcost ▸ hpos w l hl
      obtain ⟨hwk, -⟩ := inv.prev_settled x w hp
      have hdwlt : dw < dw + c := by omega
      obtain ⟨pw, hwwalk, hwhead, hwlast, hwnd, hwprops, hwbp⟩ :=
        ih dw hdwlt w hdw hwk
      refine ⟨pw ++ [x], hwwalk.snoc hwlast hleg, ?_, ?_, ?_, ?_, ?_⟩
      · cases pw with
        | nil => exact absurd rfl hwwalk.ne_nil
        | cons a t => simpa using hwhead
      · exact List.getLast?_concat pw
      · rw [List.nodup_append]
        refine ⟨hwnd, List.nodup_singleton x, ?_⟩
        intro y hy hyx
        obtain rfl : y = x := List.mem_singleton.mp hyx
        obtain ⟨-, dy, hdy, hdyle⟩ := hwprops y hy
        rw [hx] at hdy
        have : dw + c = dy := Option.some.inj hdy
        omega
      · intro y hy
        rcases List.mem_append.mp hy with hy | hy
        · obtain ⟨hyk2, dy, hdy, hdyle⟩ := hwprops y hy
          exact ⟨hyk2, dy, hdy, by omega⟩
        · obtain rfl : y = x := List.mem_singleton.mp hy
          exact ⟨hxk, dw + c, hx, le_refl _⟩
      · intro fuel acc hf
        rw [List.length_append, List.length_singleton] at hf
        cases fuel with
        | zero => exact absurd hf (by omega)
        | succ f =>
          show buildPath prev (f + 1) (some x) acc = some (pw ++ [x] ++ acc)
          rw [buildPath, if_neg hxne, hp, hwbp f (x :: acc) (by omega)]
          simp

/-- Without any assumption on the key names, the reconstruction loop still
terminates within fuel equal to the number of keys (the cursor chain
visits pairwise distinct keys, stopping early at an empty-string key). -/
theorem prevChain_partial {adj : Adj} {start : Node} {pq : List Node}
    {dist : Node → Option Nat} {prev : Node → Option Node}
    (hpos : AdjPos adj)
    (inv : LoopInv adj start pq dist prev) :
    ∀ dx x, dist x = some dx → x ∈ keysOf adj →
      ∃ p : List Node, p.Nodup ∧
        (∀ y ∈ p, y ∈ keysOf adj ∧ ∃ dy, dist y = some dy ∧ dy ≤ dx) ∧
        ∀ fuel acc, p.length ≤ fuel → buildPath prev fuel (some x) acc = some (p ++ acc) := by
  intro dx
  induction dx using Nat.strong_induction_on with
  | _ dx ih =>
    intro x hx hxk
    by_cases hxe : x = ""
    · refine ⟨[], List.nodup_nil, by simp, ?_⟩
      intro fuel acc hf
      subst hxe
      cases fuel with
      | zero => rfl
      | succ f =>
        show buildPath prev (f + 1) (some "") acc = some ([] ++ acc)
        rw [buildPath, if_pos rfl]
        simp
    · cases hp : prev x with
      | none =>
        refine ⟨[x], List.nodup_singleton x, ?_, ?_⟩
        · intro y hy
          obtain rfl : y = x := List.mem_singleton.mp hy
          exact ⟨hxk, dx, hx, le_refl dx⟩
        · intro fuel acc hf
          cases fuel with
          | zero => exact absurd hf (by simp)
          | succ f =>
            show buildPath prev (f + 1) (some x) acc = some ([x] ++ acc)
            rw [buildPath, if_neg hxe, hp, buildPath_nullCur]
            simp
      | some w =>
        obtain ⟨c, dw, hleg, hdw, hdxeq⟩ := inv.prev_link x w hp
        obtain rfl : dx = dw + c := by
          rw [hx] at hdxeq
          exact Option.some.inj hdxeq.symm |>.symm
        have hcpos : 1 ≤ c := by
          obtain ⟨l, hl, -, hcost⟩ := hleg
          exact hcost ▸ hpos w l hl
        obtain ⟨hwk, -⟩ := inv.prev_settled x w hp
        have hdwlt : dw < dw + c := by omega
        obtain ⟨pw, hwnd, hwprops, hwbp⟩ := ih dw hdwlt w hdw hwk
        refine ⟨pw ++ [x], ?_, ?_, ?_⟩
        · rw [List.nodup_append]
          refine ⟨hwnd, List.nodup_singleton x, ?_⟩
          intro y hy hyx
          obtain rfl : y = x := List.mem_singleton.mp hyx
          obtain ⟨-, dy, hdy, hdyle⟩ := hwprops y hy
          rw [hx] at hdy
          have : dw + c = dy := Option.some.inj hdy
          omega
        · intro y hy
          rcases List.mem_append.mp hy with hy | hy
          · obtain ⟨hyk2, dy, hdy, hdyle⟩ := hwprops y hy
            exact ⟨hyk2, dy, hdy, by omega⟩
          · obtain rfl : y = x := List.mem_singleton.mp hy
            exact ⟨hxk, dw + c, hx, le_refl _⟩
        · intro fuel acc hf
          rw [List.length_append, List.length_singleton] at hf
          cases fuel with
          | zero => exact absurd hf (by omega)
          | succ f =>
            show buildPath prev (f + 1) (some x) acc = some (pw ++ [x] ++ acc)
            rw [buildPath, if_neg hxe, hp, hwbp f (x :: acc) (by omega)]
            simp

/-- Soundness and optimality of the search result: when `dijkstra` returns
a pair, the path is a walk from start to goal whose cost is the returned
distance, and no walk between the endpoints is cheaper. -/
theorem dijkstra_some_spec {adj : Adj} {s g : Node} {p : List Node} {d : Nat}
    (hnodup : (keysOf adj).Nodup) (hpos : AdjPos adj) (hne : "" ∉ keysOf adj)
    (h : dijkstra adj s g = some (p, d)) :
    WalkL adj p d ∧ p.head? = some s ∧ p.getLast? = some g ∧
      ∀ d2, WalkFrom adj s g d2 → d ≤ d2 := by
  unfold dijkstra at h
  by_cases hmem : s ∈ keysOf adj ∧ g ∈ keysOf adj
  · rw [if_pos hmem] at h
    obtain ⟨pq2, inv, hterm⟩ := dijkstraRun_spec adj s g hnodup hmem.1
    cases hdg : (dijkstraRun adj s g).1 g with
    | none =>
      rw [hdg] at h
      exact absurd h Option.noConfusion
    | some dgoal =>
      rw [hdg] at h
      obtain ⟨p0, hwalk, hhead, hlast, hnd, hprops, hbp⟩ :=
        prevChain hpos inv hne dgoal g hdg hmem.2
      have hsub : ∀ y ∈ p0, y ∈ keysOf adj := fun y hy => (hprops y hy).1
      have hlen : p0.length ≤ (keysOf adj).length + 1 :=
        le_trans (List.subperm_of_subset hnd hsub).length_le (Nat.le_succ _)
      rw [hbp ((keysOf adj).length + 1) [] hlen] at h
      rw [List.append_nil] at h
      obtain ⟨hp0, hd0⟩ : p0 = p ∧ dgoal = d := by
        have := Option.some.inj h
        exact ⟨congrArg Prod.fst this, congrArg Prod.snd this⟩
      subst hp0
      subst hd0
      refine ⟨hwalk, hhead, hlast, ?_⟩
      intro d2 hw2
      exact (finalState_goal inv hterm hmem.2).1 dgoal hdg d2 hw2
  · rw [if_neg hmem] at h
    exact absurd h Option.noConfusion

/-- After the run, the goal's label is infinite exactly when the goal is
unreachable from the start (both endpoints being keys). -/
theorem dijkstraRun_none_iff {adj : Adj} {s g : Node}
    (hnodup : (keysOf adj).Nodup)
    (hs : s ∈ keysOf adj) (hg : g ∈ keysOf adj) :
    (dijkstraRun adj s g).1 g = none ↔ ¬ Reach adj s g := by
  obtain ⟨pq2, inv, hterm⟩ := dijkstraRun_spec adj s g hnodup hs
  constructor
  · intro hnone hreach
    exact (finalState_goal inv hterm hg).2 hreach hnone
  · intro hnr
    cases hdg : (dijkstraRun adj s g).1 g with
    | none => rfl
    | some d =>
      exact absurd ⟨d, inv.dist_sound g d hdg⟩ hnr

/-- The search returns `null` exactly when an endpoint is missing from the
adjacency mapping or the goal's final tentative distance is infinite. -/
theorem dijkstra_none_iff_run {adj : Adj} {s g : Node}
    (hnodup : (keysOf adj).Nodup) (hpos : AdjPos adj) :
    dijkstra adj s g = none ↔
      s ∉ keysOf adj ∨ g ∉ keysOf adj ∨ (dijkstraRun adj s g).1 g = none := by
  constructor
  · intro h
    by_cases hmem : s ∈ keysOf adj ∧ g ∈ keysOf adj
    · refine Or.inr (Or.inr ?_)
      unfold dijkstra at h
      rw [if_pos hmem] at h
      cases hdg : (dijkstraRun adj s g).1 g with
      | none => rfl
      | some dgoal =>
        exfalso
        rw [hdg] at h
        obtain ⟨pq2, inv, -⟩ := dijkstraRun_spec adj s g hnodup hmem.1
        obtain ⟨p0, hnd, hprops, hbp⟩ :=
          prevChain_partial hpos inv dgoal g hdg hmem.2
        have hsub : ∀ y ∈ p0, y ∈ keysOf adj := fun y hy => (hprops y hy).1
        have hlen : p0.length ≤ (keysOf adj).length + 1 :=
          le_trans (List.subperm_of_subset hnd hsub).length_le (Nat.le_succ _)
        rw [hbp ((keysOf adj).length + 1) [] hlen] at h
        exact Option.noConfusion h
    · rcases not_and_or.mp hmem with hmem | hmem
      · exact Or.inl hmem
      · exact Or.inr (Or.inl hmem)
  · intro h
    unfold dijkstra
    by_cases hmem : s ∈ keysOf adj ∧ g ∈ keysOf adj
    · rw [if_pos hmem]
      rcases h with h | h | h
      · exact absurd hmem.1 h
      · exact absurd hmem.2 h
      · rw [h]
    · rw [if_neg hmem]

/-- Semantic characterisation of the `null` result: an endpoint is not a
key, or the endpoints are not connected. -/
theorem dijkstra_none_iff {adj : Adj} {s g : Node}
    (hnodup : (keysOf adj).Nodup) (hpos : AdjPos adj) :
    dijkstra adj s g = none ↔
      s ∉ keysOf adj ∨ g ∉ keysOf adj ∨ ¬ Reach adj s g := by
  rw [dijkstra_none_iff_run hnodup hpos]
  by_cases hs : s ∈ keysOf adj
  · by_cases hg : g ∈ keysOf adj
    · rw [dijkstraRun_none_iff hnodup hs hg]
    · simp [hg]
  · simp [hs]

/-- Reversing a walk in an adjacency structure with symmetric legs. -/
theorem WalkL.reverse {adj : Adj}
    (hsymm : ∀ u v c, HasLeg adj u v c → HasLeg adj v u c) :
    ∀ {l : List Node} {d : Nat}, WalkL adj l d → WalkL adj l.reverse d := by
  intro l d hw
  induction hw with
  | single u => exact WalkL.single u
  | @cons a b c dtail ltail hleg htail ih =>
    have hlast : (b :: ltail).reverse.getLast? = some b := by
      rw [List.getLast?_reverse]
      rfl
    have := ih.snoc hlast (hsymm a b c hleg)
    simpa [Nat.add_comm] using this

theorem reach_symm {es : List EdgeRec} {s g : Node}
    (h : Reach (buildAdj es) s g) : Reach (buildAdj es) g s := by
  obtain ⟨d, l, hw, hh, hl⟩ := h
  refine ⟨d, l.reverse, WalkL.reverse (fun u v c hleg => hasLeg_buildAdj_symm.mp hleg) hw, ?_, ?_⟩
  · rw [List.head?_reverse]
    exact hl
  · rw [List.getLast?_reverse]
    exact hh

theorem walkFrom_symm {es : List EdgeRec} {s g : Node} {d : Nat}
    (h : WalkFrom (buildAdj es) s g d) : WalkFrom (buildAdj es) g s d := by
  obtain ⟨l, hw, hh, hl⟩ := h
  refine ⟨l.reverse, WalkL.reverse (fun u v c hleg => hasLeg_buildAdj_symm.mp hleg) hw, ?_, ?_⟩
  · rw [List.head?_reverse]
    exact hl
  · rw [List.getLast?_reverse]
    exact hh

/-- When `dijkstra` returns a result, its distance is attained by a walk
and minimal among all walk costs (no assumption on key names: the distance
does not depend on the reconstructed path). -/
theorem dijkstra_some_dist_spec {adj : Adj} {s g : Node} {p : List Node} {d : Nat}
    (hnodup : (keysOf adj).Nodup) (hpos : AdjPos adj)
    (h : dijkstra adj s g = some (p, d)) :
    WalkFrom adj s g d ∧ ∀ d2, WalkFrom adj s g d2 → d ≤ d2 := by
  unfold dijkstra at h
  by_cases hmem : s ∈ keysOf adj ∧ g ∈ keysOf adj
  · rw [if_pos hmem] at h
    obtain ⟨pq2, inv, hterm⟩ := dijkstraRun_spec adj s g hnodup hmem.1
    cases hdg : (dijkstraRun adj s g).1 g with
    | none =>
      rw [hdg] at h
      exact absurd h Option.noConfusion
    | some dgoal =>
      rw [hdg] at h
      obtain ⟨p0, hnd, hprops, hbp⟩ := prevChain_partial hpos inv dgoal g hdg hmem.2
      have hsub : ∀ y ∈ p0, y ∈ keysOf adj := fun y hy => (hprops y hy).1
      have hlen : p0.length ≤ (keysOf adj).length + 1 :=
        le_trans (List.subperm_of_subset hnd hsub).length_le (Nat.le_succ _)
      rw [hbp ((keysOf adj).length + 1) [] hlen] at h
      have hd0 : dgoal = d := congrArg Prod.snd (Option.some.inj h)
      subst hd0
      exact ⟨inv.dist_sound g dgoal hdg,
        fun d2 hw2 => (finalState_goal inv hterm hmem.2).1 dgoal hdg d2 hw2⟩
  · rw [if_neg hmem] at h
    exact absurd h Option.noConfusion

theorem legsTo_edgeId {u : Node} {e : EdgeRec} {l : Leg}
    (h : l ∈ legsTo u e) : l.edgeId = e.id := by
  rcases mem_legsTo.mp h with ⟨-, rfl⟩ | ⟨-, rfl⟩ <;> rfl

theorem filter_legsFromEdges {u : Node} {es : List EdgeRec} {e : EdgeRec}
    (he : e ∈ es) (hnodup : (es.map (fun e2 => e2.id)).Nodup) :
    (legsFromEdges u es).filter (fun l => l.edgeId = e.id) = legsTo u e := by
  induction es with
  | nil => exact absurd he (List.not_mem_nil e)
  | cons f rest ih =>
    have hnodup2 : (rest.map (fun e2 => e2.id)).Nodup := (List.nodup_cons.mp hnodup).2
    have hfresh : f.id ∉ rest.map (fun e2 => e2.id) := (List.nodup_cons.mp hnodup).1
    rw [legsFromEdges, List.filter_append]
    rcases List.mem_cons.mp he with rfl | he2
    · have h1 : (legsTo u e).filter (fun l => l.edgeId = e.id) = legsTo u e := by
        rw [List.filter_eq_self]
        intro l hl
        simp [legsTo_edgeId hl]
      have h2 : (legsFromEdges u rest).filter (fun l => l.edgeId = e.id) = [] := by
        rw [List.filter_eq_nil_iff]
        intro l hl
        obtain ⟨f2, hf2, hlf2⟩ := mem_legsFromEdges.mp hl
        have : l.edgeId = f2.id := legsTo_edgeId hlf2
        simp only [this, decide_eq_true_eq]
        intro heq
        exact hfresh (heq ▸ List.mem_map_of_mem (fun e2 => e2.id) hf2)
      rw [h1, h2, List.append_nil]
    · have hne : f.id ≠ e.id := by
        intro heq
        exact hfresh (heq ▸ List.mem_map_of_mem (fun e2 => e2.id) he2)
      have h1 : (legsTo u f).filter (fun l => l.edgeId = e.id) = [] := by
        rw [List.filter_eq_nil_iff]
        intro l hl
        have : l.edgeId = f.id := legsTo_edgeId hl
        simp only [this, decide_eq_true_eq]
        exact hne
      rw [h1, List.nil_append]
      exact ih he2 hnodup2

/-! Claim theorems for the offline routing component. -/

/-- Counterexample to claim C1 as stated: instantiating the generic nodes
A, B, C of the claim with A = "A", B = "" (the empty string is a legal
stored node identifier), C = "C", the edge set contains A–B at cost 1 and
B–C at cost 1 and no cheaper alternative, yet `shortestPath(A, C)` returns
the truncated path `["C"]` — not `[A, B, C]` — because the reconstruction
loop `while (cur)` treats the empty-string node as falsy and stops. -/
theorem shortestPath_empty_id_path_counterexample :
    shortestPath [⟨"e1", "A", "", some 1⟩, ⟨"e2", "", "C", some 1⟩] "A" "C" =
        some (["C"], 2) ∧
      some (["C"], 2) ≠ some (["A", "", "C"], (2 : Nat)) := by
  constructor
  · decide
  · decide

/-- Claim C1 (amended): with exactly the edges A–B cost 1 and B–C cost 1
(distinct nonempty literal identifiers), `shortestPath(A, C)` returns the
path `[A, B, C]` with distance 2; and in general, for any edge set whose
stored endpoints are nonempty strings, whenever `shortestPath` returns a
result its distance is attained by the returned path (a walk from the
source to the target in the undirected expansion) and is minimal among
the costs of all such walks. -/
theorem shortestPath_chain_and_optimal :
    shortestPath [⟨"e1", "A", "B", some 1⟩, ⟨"e2", "B", "C", some 1⟩] "A" "C" =
        some (["A", "B", "C"], 2) ∧
      ∀ (es : List EdgeRec) (s g : Node) (p : List Node) (d : Nat),
        (∀ e ∈ es, e.fromId ≠ "" ∧ e.toId ≠ "") →
        shortestPath es s g = some (p, d) →
        WalkL (buildAdj es) p d ∧ p.head? = some s ∧ p.getLast? = some g ∧
          ∀ d2, WalkFrom (buildAdj es) s g d2 → d ≤ d2 := by
  constructor
  · decide
  · intro es s g p d hids h
    have hne : "" ∉ keysOf (buildAdj es) := by
      rw [mem_keysOf_buildAdj]
      rintro ⟨e, he, heq | heq⟩
      · exact (hids e he).1 heq.symm
      · exact (hids e he).2 heq.symm
    exact dijkstra_some_spec (nodup_keysOf_buildAdj es) (buildAdj_pos es) hne h

/-- Witness for claim C1 at the two-edge chain: the returned path is a
walk of cost 2 and no walk from A to C is cheaper. -/
theorem shortestPath_chain_and_optimal_witness :
    WalkL (buildAdj [⟨"e1", "A", "B", some 1⟩, ⟨"e2", "B", "C", some 1⟩])
        ["A", "B", "C"] 2 ∧
      ∀ d2, WalkFrom (buildAdj [⟨"e1", "A", "B", some 1⟩, ⟨"e2", "B", "C", some 1⟩])
        "A" "C" d2 → 2 ≤ d2 := by
  have h := shortestPath_chain_and_optimal.2
    [⟨"e1", "A", "B", some 1⟩, ⟨"e2", "B", "C", some 1⟩] "A" "C"
    ["A", "B", "C"] 2 (by decide) shortestPath_chain_and_optimal.1
  exact ⟨h.1, h.2.2.2⟩

/-- Counterexample to claim C7 as stated: a stored zero-cost edge does not
contribute legs of cost 0 — the JavaScript expression `e.cost || 1`
replaces the falsy value 0 with 1, so both legs carry cost 1. -/
theorem buildAdj_zero_cost_counterexample :
    legsOf (buildAdj [⟨"e1", "A", "B", some 0⟩]) "A" = [⟨"B", 1, "e1"⟩] ∧
      ∀ l ∈ legsOf (buildAdj [⟨"e1", "A", "B", some 0⟩]) "A", l.cost ≠ 0 := by
  constructor
  · decide
  · decide

/-- Claim C7 (amended): every loaded edge `(u, v, cost)` with an id unique
in the batch contributes exactly two directed legs — `u → v` under key `u`
and `v → u` under key `v`, and none elsewhere — each carrying the value of
`e.cost || 1`: the stored cost is kept whenever it is truthy and 1 is
substituted exactly when the cost is unset or zero (JavaScript `||` treats
0 as absent), so a stored zero-cost edge contributes two legs of cost 1;
and the search and the path reconstruction never run forever: the result
is `none` exactly under the explicit missing-key or infinite-distance
conditions, never by non-termination of the reconstruction. -/
theorem buildAdj_legs_per_edge (es : List EdgeRec) (e : EdgeRec)
    (he : e ∈ es) (hnodup : (es.map (fun e2 => e2.id)).Nodup) :
    (∀ u, (legsOf (buildAdj es) u).filter (fun l => l.edgeId = e.id) = legsTo u e) ∧
      legsTo e.fromId e ≠ [] ∧ legsTo e.toId e ≠ [] ∧
      (∀ u, u ≠ e.fromId → u ≠ e.toId → legsTo u e = []) ∧
      (∀ l ∈ legsTo e.fromId e, l.cost = costOr1 e.cost) ∧
      costOr1 none = 1 ∧ costOr1 (some 0) = 1 ∧
      (∀ c, c ≠ 0 → costOr1 (some c) = c) ∧
      (∀ s g, shortestPath es s g = none ↔
        s ∉ keysOf (buildAdj es) ∨ g ∉ keysOf (buildAdj es) ∨
          (dijkstraRun (buildAdj es) s g).1 g = none) := by
  refine ⟨?_, ?_, ?_, ?_, ?_, rfl, rfl, ?_, ?_⟩
  · intro u
    rw [legsOf_buildAdj]
    exact filter_legsFromEdges he hnodup
  · simp [legsTo]
  · simp [legsTo]
  · intro u h1 h2
    unfold legsTo
    rw [if_neg fun h => h1 h.symm, if_neg fun h => h2 h.symm]
    rfl
  · intro l hl
    rcases mem_legsTo.mp hl with ⟨-, rfl⟩ | ⟨-, rfl⟩ <;> rfl
  · intro c hc
    simp [costOr1, hc]
  · intro s g
    exact dijkstra_none_iff_run (nodup_keysOf_buildAdj es) (buildAdj_pos es)

/-- Witness for claim C7 at a single zero-cost edge, with the truthy cost
5 kept unchanged. -/
theorem buildAdj_legs_per_edge_witness :
    (legsOf (buildAdj [⟨"e1", "A", "B", some 0⟩]) "A").filter
        (fun l => l.edgeId = "e1") = legsTo "A" ⟨"e1", "A", "B", some 0⟩ ∧
      costOr1 (some 5) = 5 := by
  have h := buildAdj_legs_per_edge [⟨"e1", "A", "B", some 0⟩]
    ⟨"e1", "A", "B", some 0⟩ (by decide) (by decide)
  exact ⟨h.1 "A", h.2.2.2.2.2.2.2.1 5 (by decide)⟩

/-- Claim C8: for any edge set and endpoints, the searches in the two
directions either both return `NotFound` or both return the same distance,
because every stored edge is expanded into both directions with equal
cost. -/
theorem shortestPath_symmetric (es : List EdgeRec) (A B : Node) :
    (shortestPath es A B = none ∧ shortestPath es B A = none) ∨
      ∃ p q d, shortestPath es A B = some (p, d) ∧ shortestPath es B A = some (q, d) := by
  have hnodup := nodup_keysOf_buildAdj es
  have hpos := buildAdj_pos es
  simp only [shortestPath]
  by_cases hcond : A ∈ keysOf (buildAdj es) ∧ B ∈ keysOf (buildAdj es) ∧
      Reach (buildAdj es) A B
  · obtain ⟨hA, hB, hR⟩ := hcond
    have h1 : dijkstra (buildAdj es) A B ≠ none := by
      rw [ne_eq, dijkstra_none_iff hnodup hpos]
      push_neg
      exact ⟨hA, hB, hR⟩
    have h2 : dijkstra (buildAdj es) B A ≠ none := by
      rw [ne_eq, dijkstra_none_iff hnodup hpos]
      push_neg
      exact ⟨hB, hA, reach_symm hR⟩
    obtain ⟨⟨p, d1⟩, hAB⟩ : ∃ r, dijkstra (buildAdj es) A B = some r := by
      cases hr : dijkstra (buildAdj es) A B with
      | none => exact absurd hr h1
      | some r => exact ⟨r, rfl⟩
    obtain ⟨⟨q, d2⟩, hBA⟩ : ∃ r, dijkstra (buildAdj es) B A = some r := by
      cases hr : dijkstra (buildAdj es) B A with
      | none => exact absurd hr h2
      | some r => exact ⟨r, rfl⟩
    obtain ⟨hw1, hmin1⟩ := dijkstra_some_dist_spec hnodup hpos hAB
    obtain ⟨hw2, hmin2⟩ := dijkstra_some_dist_spec hnodup hpos hBA
    obtain rfl : d1 = d2 :=
      le_antisymm (hmin1 d2 (walkFrom_symm hw2)) (hmin2 d1 (walkFrom_symm hw1))
    exact Or.inr ⟨p, q, d1, hAB, hBA⟩
  · have hAB : dijkstra (buildAdj es) A B = none := by
      rw [dijkstra_none_iff hnodup hpos]
      by_cases hA : A ∈ keysOf (buildAdj es)
      · by_cases hB : B ∈ keysOf (buildAdj es)
        · exact Or.inr (Or.inr fun hR => hcond ⟨hA, hB, hR⟩)
        · exact Or.inr (Or.inl hB)
      · exact Or.inl hA
    have hBA : dijkstra (buildAdj es) B A = none := by
      rw [dijkstra_none_iff hnodup hpos]
      by_cases hA : A ∈ keysOf (buildAdj es)
      · by_cases hB : B ∈ keysOf (buildAdj es)
        · exact Or.inr (Or.inr fun hR => hcond ⟨hA, hB, reach_symm hR⟩)
        · exact Or.inl hB
      · exact Or.inr (Or.inl hA)
    exact Or.inl ⟨hAB, hBA⟩

/-- Claim C9: `shortestPath` returns `NotFound` (a `none` result, never an
exception — the model is a total function) exactly when an endpoint is
missing from the adjacency mapping or the target's tentative distance is
still infinite after the search; the infinite-distance condition holds,
for endpoints that are keys, exactly when the endpoints are disconnected;
and in every other case a path with a finite distance is returned. -/
theorem shortestPath_none_characterisation (es : List EdgeRec) (s g : Node) :
    (shortestPath es s g = none ↔
        s ∉ keysOf (buildAdj es) ∨ g ∉ keysOf (buildAdj es) ∨
          (dijkstraRun (buildAdj es) s g).1 g = none) ∧
      (s ∈ keysOf (buildAdj es) → g ∈ keysOf (buildAdj es) →
        ((dijkstraRun (buildAdj es) s g).1 g = none ↔ ¬ Reach (buildAdj es) s g)) ∧
      (shortestPath es s g ≠ none → ∃ p d, shortestPath es s g = some (p, d)) := by
  refine ⟨?_, ?_, ?_⟩
  · exact dijkstra_none_iff_run (nodup_keysOf_buildAdj es) (buildAdj_pos es)
  · intro hs hg
    exact dijkstraRun_none_iff (nodup_keysOf_buildAdj es) hs hg
  · intro h
    cases hr : shortestPath es s g with
    | none => exact absurd hr h
    | some r =>
      obtain ⟨a, b⟩ := r
      exact ⟨a, b, rfl⟩

/-- Witness for claim C9: on the single edge A–B, the endpoints are keys
and the run label of B is finite, matching reachability. -/
theorem shortestPath_none_characterisation_witness :
    ("A" ∈ keysOf (buildAdj [⟨"e1", "A", "B", some 1⟩]) ∧
        "B" ∈ keysOf (buildAdj [⟨"e1", "A", "B", some 1⟩])) ∧
      ((dijkstraRun (buildAdj [⟨"e1", "A", "B", some 1⟩]) "A" "B").1 "B" = none ↔
        ¬ Reach (buildAdj [⟨"e1", "A", "B", some 1⟩]) "A" "B") := by
  refine ⟨⟨by decide, by decide⟩, ?_⟩
  exact (shortestPath_none_characterisation [⟨"e1", "A", "B", some 1⟩] "A" "B").2.1
    (by decide) (by decide)

/-! Dual-store layer: the category controller (`categoriesController`,
`src/unnamed/part_015`), its older variant (`src/unnamed/part_014`), and
the places controller (`src/unnamed/part_017`).  PostgreSQL is the
canonical store, SQLite the reduced mirror.  Generated identifiers are
modelled by a per-state counter: each `save` of a record created without
an explicit id consumes one fresh value, so distinct generations yield
distinct identifiers, as distinct UUIDs do. -/

/-- ECMAScript WhiteSpace and LineTerminator code points: the set removed
by `String.prototype.trim` and matched by the regex class `\s`. -/
def isJsWhitespace (c : Char) : Bool :=
  c = ' ' || c = '\t' || c = '\n' || c = '\r' ||
    c = '\x0b' || c = '\x0c' || c = '\u00a0' || c = '\u1680' ||
    (0x2000 ≤ c.toNat && c.toNat ≤ 0x200a) ||
    c = '\u2028' || c = '\u2029' || c = '\u202f' || c = '\u205f' ||
    c = '\u3000' || c = '\ufeff'

/-- JavaScript `name.trim()`. -/
def jsTrim (s : String) : String :=
  ⟨((s.data.dropWhile isJsWhitespace).reverse.dropWhile isJsWhitespace).reverse⟩

/-- The character class of `/^[a-zA-ZÀ-ÿ0-9\s\-_]+$/` (the range À–ÿ is
U+00C0..U+00FF). -/
def isAllowedNameChar (c : Char) : Bool :=
  ('a' ≤ c && c ≤ 'z') || ('A' ≤ c && c ≤ 'Z') ||
    ('0' ≤ c && c ≤ '9') || ('À' ≤ c && c ≤ 'ÿ') ||
    isJsWhitespace c || c = '-' || c = '_'

/-- The test `nameRegex.test(trimmedName)`: with the `^`/`$` anchors and
`+`, it holds exactly when the string is nonempty and every character is
in the class. -/
def nameRegexTest (s : String) : Bool :=
  !s.data.isEmpty && s.data.all isAllowedNameChar

/-- A JavaScript-falsy optional string: absent (or not a string) or empty.
An absent value also models a non-string request body value, which the
controllers reject through the same `typeof` guard. -/
def falsyS : Option String → Bool
  | none => true
  | some s => s = ""

/-- A JavaScript-falsy optional number: absent, or zero. -/
def falsyI : Option Int → Bool
  | none => true
  | some i => i = 0

/-- A canonical `Category` row: generated id, unique name, and the ids of
the places referencing it (the `places` relation). -/
structure CategoryRec where
  id : Nat
  name : String
  places : List Nat
deriving DecidableEq

/-- A mirror `CategoryLite` row. -/
structure CategoryLiteRec where
  id : Nat
  name : String
  places : List Nat
deriving DecidableEq

/-- The two category stores, their availability, and the id generator. -/
structure CatState where
  pg : List CategoryRec
  lite : List CategoryLiteRec
  pgInit : Bool
  liteInit : Bool
  fresh : Nat
deriving DecidableEq

inductive CatCreateResult
  | badRequest
  | unavailable
  | conflict
  | created (c : CategoryRec)
deriving DecidableEq

/-- `createCategory` of the current categories controller: validate the
name (required string, trimmed length 2..50, character class), check both
stores are reachable, check the trimmed name against both stores, then
write the canonical row and replicate it to the mirror with the same
generated id.  String length counts code points; on every accepted name
(all characters below U+0100) this coincides with JavaScript's UTF-16
length. -/
def createCategory (s : CatState) (name : Option String) :
    CatCreateResult × CatState :=
  match name with
  | none => (.badRequest, s)
  | some n =>
    if n = "" then (.badRequest, s)
    else
      let t := jsTrim n
      if t.length < 2 then (.badRequest, s)
      else if t.length > 50 then (.badRequest, s)
      else if !nameRegexTest t then (.badRequest, s)
      else if !s.pgInit then (.unavailable, s)
      else if !s.liteInit then (.unavailable, s)
      else if s.pg.any (fun c => c.name = t) then (.conflict, s)
      else if s.lite.any (fun c => c.name = t) then (.conflict, s)
      else
        let c : CategoryRec := ⟨s.fresh, t, []⟩
        let cl : CategoryLiteRec := ⟨s.fresh, t, []⟩
        (.created c,
          { s with
            pg := s.pg ++ [c]
            lite := s.lite ++ [cl]
            fresh := s.fresh + 1 })

inductive CatCreateResultV14
  | unavailable
  | badRequest
  | conflict
  | serverError
deriving DecidableEq

/-- `createCategory` of the older controller variant: PostgreSQL-presence
check, falsy-name check, duplicate check against the canonical store only,
canonical write — and then the SQLite mirror write goes through
`sqliteDataSource.getRepository(Category)`.  The SQLite `DataSource`
registers only the Lite entities, so `Category` has no metadata there and
`sqliteRepo.create({ name })` throws `EntityMetadataNotFoundError`; the
handler's catch answers 500 with the canonical row already persisted and
no mirror row ever written.  This variant therefore never completes a
create. -/
def createCategoryV14 (s : CatState) (name : Option String) :
    CatCreateResultV14 × CatState :=
  if !s.pgInit then (.unavailable, s)
  else
    match name with
    | none => (.badRequest, s)
    | some n =>
      if n = "" then (.badRequest, s)
      else if s.pg.any (fun c => c.name = n) then (.conflict, s)
      else
        (.serverError,
          { s with
            pg := s.pg ++ [⟨s.fresh, n, []⟩]
            fresh := s.fresh + 1 })

inductive UpdateCatResult
  | badRequest
  | unavailable
  | notFound
  | conflict
  | ok (c : CategoryRec)
deriving DecidableEq

/-- `updateCategory` of the current categories controller: after the same
name validation, it requires both stores, looks the id up in both, rejects
with not-found when the record is missing from both, from the canonical
store, or from the mirror, rejects a name collision with another canonical
row, and otherwise renames the row in both stores. -/
def updateCategory (s : CatState) (id : Option Nat) (name : Option String) :
    UpdateCatResult × CatState :=
  match id with
  | none => (.badRequest, s)
  | some i =>
    match name with
    | none => (.badRequest, s)
    | some n =>
      if n = "" then (.badRequest, s)
      else
        let t := jsTrim n
        if t.length < 2 then (.badRequest, s)
        else if t.length > 50 then (.badRequest, s)
        else if !nameRegexTest t then (.badRequest, s)
        else if !(s.pgInit && s.liteInit) then (.unavailable, s)
        else
          match s.pg.find? (fun c => c.id = i), s.lite.find? (fun c => c.id = i) with
          | none, none => (.notFound, s)
          | none, some _ => (.notFound, s)
          | some _, none => (.notFound, s)
          | some cp, some _ =>
            match s.pg.find? (fun c => c.name = t) with
            | some other =>
              if other.id ≠ i then (.conflict, s)
              else
                (.ok { cp with name := t },
                  { s with
                    pg := s.pg.map (fun c => if c.id = i then { c with name := t } else c)
                    lite := s.lite.map (fun c => if c.id = i then { c with name := t } else c) })
            | none =>
              (.ok { cp with name := t },
                { s with
                  pg := s.pg.map (fun c => if c.id = i then { c with name := t } else c)
                  lite := s.lite.map (fun c => if c.id = i then { c with name := t } else c) })

inductive DeleteCatResult
  | badRequest
  | unavailable
  | notFound
  | conflictInUse
  | ok (deletedFrom : List String)
  | noContent
deriving DecidableEq

/-- `deleteCategory` of the current categories controller: requires both
stores; not-found only when the id is missing from both; rejects when the
canonical row still has referencing places; otherwise removes the row from
each store where it exists and reports in `deletedFrom` exactly the stores
that were affected. -/
def deleteCategory (s : CatState) (id : Option Nat) : DeleteCatResult × CatState :=
  match id with
  | none => (.badRequest, s)
  | some i =>
    if !(s.pgInit && s.liteInit) then (.unavailable, s)
    else
      let catPg := s.pg.find? (fun c => c.id = i)
      let catLite := s.lite.find? (fun c => c.id = i)
      if catPg = none ∧ catLite = none then (.notFound, s)
      else if (catPg.map (fun c => !c.places.isEmpty)).getD false then
        (.conflictInUse, s)
      else
        (.ok ((if catPg.isSome then ["postgresql"] else []) ++
            (if catLite.isSome then ["sqlite"] else [])),
          { s with
            pg := if catPg.isSome then s.pg.eraseP (fun c => c.id = i) else s.pg
            lite := if catLite.isSome then s.lite.eraseP (fun c => c.id = i) else s.lite })

inductive DeleteCatResultV14
  | unavailable
  | notFound
  | serverError
deriving DecidableEq

/-- `deleteCategory` of the older controller variant: not-found when the
id is missing from the canonical store; otherwise the mirror lookup goes
through `sqliteDataSource.getRepository(Category)`, whose entity is not
registered on the SQLite `DataSource`, so `findOne` throws
`EntityMetadataNotFoundError` and the handler answers 500 — nothing is
deleted from either store. -/
def deleteCategoryV14 (s : CatState) (id : Nat) : DeleteCatResultV14 × CatState :=
  if !s.pgInit then (.unavailable, s)
  else
    match s.pg.find? (fun c => c.id = id) with
    | none => (.notFound, s)
    | some _ => (.serverError, s)

/-- A category as embedded eagerly in a place response: its id and name. -/
structure CatRef where
  id : Nat
  name : String
deriving DecidableEq

/-- A canonical `Place` row (all columns of the full schema). -/
structure PlaceRec where
  id : Nat
  name : String
  description : Option String
  photos : Option (List String)
  latitude : Int
  longitude : Int
  category : Option CatRef
  officeOwner : Option String
  capacity : Option Int
  building : Option String
  floor : Option String
  code : Option String
  instructor : Option Nat
  courses : List Nat
deriving DecidableEq

/-- A mirror `PlaceLite` row: identifier, name, category reference, and
coordinates only. -/
structure PlaceLiteRec where
  id : Nat
  name : String
  category : Option CatRef
  latitude : Int
  longitude : Int
deriving DecidableEq

/-- The canonical response shape for a place, as serialised by the places
controller. -/
structure PlaceResponse where
  id : Nat
  name : String
  description : Option String
  photos : Option (List String)
  latitude : Int
  longitude : Int
  category : Option CatRef
  officeOwner : Option String
  capacity : Option Int
  building : Option String
  floor : Option String
  code : Option String
  instructor : Option Nat
  courses : List Nat
deriving DecidableEq

/-- Serialisation of a canonical row: every column as stored. -/
def placeResponse (p : PlaceRec) : PlaceResponse :=
  ⟨p.id, p.name, p.description, p.photos, p.latitude, p.longitude,
    p.category, p.officeOwner, p.capacity, p.building, p.floor, p.code,
    p.instructor, p.courses⟩

/-- The Schema Normalizer of the offline read path (`formattedPlace` in
`getPlaceById` / `getPlaces`): mirror fields are copied, every canonical
field absent from the mirror schema is set to the explicit unavailable
value (`null`, and `[]` for the courses relation), never omitted. -/
def formatPlaceLite (p : PlaceLiteRec) : PlaceResponse :=
  ⟨p.id, p.name, none, none, p.latitude, p.longitude, p.category,
    none, none, none, none, none, none, []⟩

/-- The mirror row that the dual write derives from a canonical row: same
id, name and coordinates, and the mirror-store category reference. -/
def mirrorOfPlace (p : PlaceRec) : PlaceLiteRec :=
  ⟨p.id, p.name, p.category, p.latitude, p.longitude⟩

/-- The two place stores, the category tables of both stores, the known
instructor ids, and the id generator. -/
structure PlacesDb where
  pg : List PlaceRec
  lite : List PlaceLiteRec
  pgCats : List CatRef
  liteCats : List CatRef
  instructors : List Nat
  fresh : Nat
deriving DecidableEq

inductive ReadPlaceResult
  | notFound
  | ok (p : PlaceResponse)
deriving DecidableEq

/-- `getPlaceById`: the Connectivity Oracle's verdict (`online`) routes
the read to the canonical store (serialised as is) or to the mirror store
through the Schema Normalizer. -/
def getPlaceById (db : PlacesDb) (online : Bool) (id : Nat) : ReadPlaceResult :=
  if online then
    match db.pg.find? (fun p => p.id = id) with
    | none => .notFound
    | some p => .ok (placeResponse p)
  else
    match db.lite.find? (fun p => p.id = id) with
    | none => .notFound
    | some p => .ok (formatPlaceLite p)

/-- `getPlaces`: the list read under the same routing. -/
def getPlaces (db : PlacesDb) (online : Bool) : List PlaceResponse :=
  if online then db.pg.map placeResponse
  else db.lite.map formatPlaceLite

/-- The request body of a place create / update. -/
structure PlaceFields where
  name : Option String
  description : Option String
  latitude : Option Int
  longitude : Option Int
  category : Option String
  officeOwner : Option String
  capacity : Option Int
  building : Option String
  floor : Option String
  code : Option String
  instructorId : Option Nat
deriving DecidableEq

inductive CreatePlaceResult
  | badRequest
  | pgRequired
  | serverError
  | notFound
  | created (p : PlaceRec)
deriving DecidableEq

/-- `createPlace`: requires name, latitude and longitude to be truthy and
the canonical store reachable.  When a truthy category name is given, the
category block (lines 149–168) reads the canonical category table and then
queries the mirror table through `sqliteDataSource.getRepository(Category)`;
`Category` is not registered on the SQLite `DataSource` (only the Lite
entities are), so that first mirror query throws
`EntityMetadataNotFoundError` before any write and the handler answers
500.  Otherwise it rejects an unknown instructor, writes the canonical
row, then writes the mirror row carrying the canonical row's generated id
and the mirror-schema field subset. -/
def createPlace (db : PlacesDb) (online : Bool) (f : PlaceFields) :
    CreatePlaceResult × PlacesDb :=
  if falsyS f.name || falsyI f.latitude || falsyI f.longitude then (.badRequest, db)
  else if !online then (.pgRequired, db)
  else if !falsyS f.category then (.serverError, db)
  else if (match f.instructorId with
      | some iid => !(db.instructors.contains iid)
      | none => false) then
    (.notFound, db)
  else
    let pgPlace : PlaceRec :=
      ⟨db.fresh, f.name.getD "", f.description, none,
        f.latitude.getD 0, f.longitude.getD 0, none, f.officeOwner,
        f.capacity, f.building, f.floor, f.code, f.instructorId, []⟩
    let litePlace : PlaceLiteRec :=
      ⟨pgPlace.id, pgPlace.name, none, pgPlace.latitude, pgPlace.longitude⟩
    (.created pgPlace,
      { db with
        pg := db.pg ++ [pgPlace]
        lite := db.lite ++ [litePlace]
        fresh := db.fresh + 1 })

/-- TypeORM `merge` on the canonical row: provided (defined) fields
overwrite, absent fields are kept; the category is assigned when the
request named one, the instructor when an instructor id was given. -/
def mergePlace (p : PlaceRec) (f : PlaceFields) (pgCat : Option CatRef) : PlaceRec :=
  { p with
    name := f.name.getD p.name
    description := if f.description.isSome then f.description else p.description
    latitude := f.latitude.getD p.latitude
    longitude := f.longitude.getD p.longitude
    officeOwner := if f.officeOwner.isSome then f.officeOwner else p.officeOwner
    capacity := if f.capacity.isSome then f.capacity else p.capacity
    building := if f.building.isSome then f.building else p.building
    floor := if f.floor.isSome then f.floor else p.floor
    code := if f.code.isSome then f.code else p.code
    category :=
      if f.category.isSome then
        match pgCat with
        | some c => some c
        | none => p.category
      else p.category
    instructor := if f.instructorId.isSome then f.instructorId else p.instructor }

/-- TypeORM `merge` on the mirror row: only the mirror-schema fields. -/
def mergeLite (p : PlaceLiteRec) (f : PlaceFields) (liteCat : Option CatRef) :
    PlaceLiteRec :=
  { p with
    name := f.name.getD p.name
    latitude := f.latitude.getD p.latitude
    longitude := f.longitude.getD p.longitude
    category :=
      if f.category.isSome then
        match liteCat with
        | some c => some c
        | none => p.category
      else p.category }

inductive UpdatePlaceResult
  | pgRequired
  | notFound
  | serverError
  | okPg (p : PlaceRec)
  | okLite (p : PlaceLiteRec)
deriving DecidableEq

/-- `updatePlace`: requires the canonical store; rejects only when the id
is missing from BOTH stores.  When a truthy category name is given, the
category block reads the canonical category table and then queries the
mirror table through `sqliteDataSource.getRepository(Category)`; the
entity is not registered on the SQLite `DataSource`, so the query throws
`EntityMetadataNotFoundError` before any write and the handler answers
500.  Otherwise an instructor id, when given, must exist; then each store
that has the row gets it merged, and the response carries the canonical
row when present, else the mirror row. -/
def updatePlace (db : PlacesDb) (online : Bool) (id : Nat) (f : PlaceFields) :
    UpdatePlaceResult × PlacesDb :=
  if !online then (.pgRequired, db)
  else
    let pgPlace := db.pg.find? (fun p => p.id = id)
    let litePlace := db.lite.find? (fun p => p.id = id)
    if pgPlace = none ∧ litePlace = none then (.notFound, db)
    else if !falsyS f.category then (.serverError, db)
    else if (match f.instructorId with
        | some iid => !(db.instructors.contains iid)
        | none => false) then
      (.notFound, db)
    else
      let db2 :=
        { db with
          pg :=
            if pgPlace.isSome then
              db.pg.map (fun p => if p.id = id then mergePlace p f none else p)
            else db.pg
          lite :=
            if litePlace.isSome then
              db.lite.map (fun p => if p.id = id then mergeLite p f none else p)
            else db.lite }
      match pgPlace with
      | some pp => (.okPg (mergePlace pp f none), db2)
      | none =>
        match litePlace with
        | some lp => (.okLite (mergeLite lp f none), db2)
        | none => (.notFound, db2)

inductive DeletePlaceResult
  | pgRequired
  | notFound
  | noContent
deriving DecidableEq

/-- `deletePlace`: requires the canonical store; not-found only when the
id is missing from both stores; otherwise removes the row from each store
where it exists and answers 204 with an empty body. -/
def deletePlace (db : PlacesDb) (online : Bool) (id : Nat) :
    DeletePlaceResult × PlacesDb :=
  if !online then (.pgRequired, db)
  else
    let pgPlace := db.pg.find? (fun p => p.id = id)
    let litePlace := db.lite.find? (fun p => p.id = id)
    if pgPlace = none ∧ litePlace = none then (.notFound, db)
    else
      (.noContent,
        { db with
          pg := if pgPlace.isSome then db.pg.eraseP (fun p => p.id = id) else db.pg
          lite := if litePlace.isSome then db.lite.eraseP (fun p => p.id = id) else db.lite })

/-! Claim theorems for the dual-store layer. -/

/-- Inversion of a successful category create: the input passed every
validation, both stores were reachable, the trimmed name was in neither
store, and both rows were appended with the same generated id. -/
theorem createCategory_created_inv {s : CatState} {name : Option String}
    {c : CategoryRec} {s1 : CatState}
    (h : createCategory s name = (.created c, s1)) :
    ∃ n, name = some n ∧ ¬ n = "" ∧
      2 ≤ (jsTrim n).length ∧ (jsTrim n).length ≤ 50 ∧
      nameRegexTest (jsTrim n) = true ∧
      s.pgInit = true ∧ s.liteInit = true ∧
      s.pg.any (fun c2 => c2.name = jsTrim n) = false ∧
      s.lite.any (fun c2 => c2.name = jsTrim n) = false ∧
      c = ⟨s.fresh, jsTrim n, []⟩ ∧
      s1 = { s with
        pg := s.pg ++ [⟨s.fresh, jsTrim n, []⟩]
        lite := s.lite ++ [⟨s.fresh, jsTrim n, []⟩]
        fresh := s.fresh + 1 } := by
  cases name with
  | none => simp [createCategory] at h
  | some n =>
    refine ⟨n, rfl, ?_⟩
    by_cases h1 : n = ""
    · simp [createCategory, h1] at h
    · by_cases h2 : (jsTrim n).length < 2
      · simp [createCategory, h1, h2] at h
      · by_cases h3 : (jsTrim n).length > 50
        · simp [createCategory, h1, h2, h3] at h
        · by_cases h4 : nameRegexTest (jsTrim n) = true
          · by_cases h5 : s.pgInit = true
            · by_cases h6 : s.liteInit = true
              · by_cases h7 : s.pg.any (fun c2 => c2.name = jsTrim n) = true
                · simp [createCategory, h1, h2, h3, h4, h5, h6, h7] at h
                · by_cases h8 : s.lite.any (fun c2 => c2.name = jsTrim n) = true
                  · simp [createCategory, h1, h2, h3, h4, h5, h6, h7, h8] at h
                  · rw [Bool.not_eq_true] at h7 h8
                    simp [createCategory, h1, h2, h3, h4, h5, h6, h7, h8] at h
                    obtain ⟨hc, hs⟩ := h
                    refine ⟨h1, by omega, by omega, h4, h5, h6, h7, h8, hc.symm, ?_⟩
                    rw [h5, h6]
                    exact hs.symm
              · simp [createCategory, h1, h2, h3, h4, h5, h6] at h
            · simp [createCategory, h1, h2, h3, h4, h5] at h
          · simp [createCategory, h1, h2, h3, h4] at h
/-- Any rejected category create leaves the state untouched: every
non-created branch of `createCategory` returns the input state. -/
theorem createCategory_reject_no_write (s : CatState) (name : Option String) :
    (createCategory s name).2 = s ∨
      ∃ c, (createCategory s name).1 = CatCreateResult.created c := by
  rcases name with - | n
  · exact Or.inl rfl
  · simp only [createCategory]
    repeat' split
    all_goals first
      | exact Or.inl rfl
      | exact Or.inr ⟨_, rfl⟩

/-- Claim C3: a second create of the same category name is rejected as a
conflict, leaving the state (both stores) exactly as the first create left
it; afterwards exactly one canonical row carries the name; and every
rejected create — the checks all precede the writes — modifies neither
store. -/
theorem createCategory_conflict_idempotent (s s1 : CatState)
    (name : Option String) (c : CategoryRec)
    (h : createCategory s name = (.created c, s1)) :
    (createCategory s1 name).1 = CatCreateResult.conflict ∧
      (createCategory s1 name).2 = s1 ∧
      (s1.pg.filter (fun c2 => c2.name = c.name)).length = 1 ∧
      ∀ (s2 : CatState) (n2 : Option String),
        (∀ c2, (createCategory s2 n2).1 ≠ CatCreateResult.created c2) →
        (createCategory s2 n2).2 = s2 := by
  obtain ⟨n, rfl, h1, h2, h3, h4, h5, h6, h7, h8, hc, hs⟩ :=
    createCategory_created_inv h
  have hl2 : ¬ (jsTrim n).length < 2 := by omega
  have hl3 : ¬ (jsTrim n).length > 50 := by omega
  have hdup : s1.pg.any (fun c2 => c2.name = jsTrim n) = true := by
    rw [hs]
    simp
  refine ⟨?_, ?_, ?_, ?_⟩
  · simp [createCategory, h1, hl2, hl3, h4, hs, h5, h6, hdup]
  · simp [createCategory, h1, hl2, hl3, h4, hs, h5, h6, hdup]
  · rw [hs, hc]
    simp only [List.filter_append]
    have hempty : s.pg.filter (fun c2 => c2.name = jsTrim n) = [] := by
      rw [List.filter_eq_nil_iff]
      intro c2 hc2
      have h7b := h7
      rw [List.any_eq_false] at h7b
      simpa using h7b c2 hc2
    rw [hempty]
    simp
  · intro s2 n2 hnc
    rcases createCategory_reject_no_write s2 n2 with h0 | ⟨c2, h0⟩
    · exact h0
    · exact absurd h0 (hnc c2)

/-- Witness for claim C3: after creating "Lab" in the empty dual store,
the second attempt conflicts and changes nothing. -/
theorem createCategory_conflict_idempotent_witness :
    (createCategory ⟨[⟨0, "Lab", []⟩], [⟨0, "Lab", []⟩], true, true, 1⟩
        (some "Lab")).1 = CatCreateResult.conflict ∧
      (createCategory ⟨[⟨0, "Lab", []⟩], [⟨0, "Lab", []⟩], true, true, 1⟩
        (some "Lab")).2 = ⟨[⟨0, "Lab", []⟩], [⟨0, "Lab", []⟩], true, true, 1⟩ := by
  have h := createCategory_conflict_idempotent ⟨[], [], true, true, 0⟩
    ⟨[⟨0, "Lab", []⟩], [⟨0, "Lab", []⟩], true, true, 1⟩ (some "Lab")
    ⟨0, "Lab", []⟩ (by decide)
  exact ⟨h.1, h.2.1⟩

/-- Claim C10: `createCategory` answers with a validation error exactly
when the request body does not hold a string whose trimmed form has length
between 2 and 50 and all of whose characters lie in the class
`[a-zA-ZÀ-ÿ0-9\s\-_]`; a validation error changes neither store (it is
raised before any store is consulted); and a successful create persists
the trimmed name — not the raw input — in both stores. -/
theorem createCategory_validation (s : CatState) (name : Option String) :
    ((createCategory s name).1 = CatCreateResult.badRequest ↔
      ¬ ∃ n, name = some n ∧ 2 ≤ (jsTrim n).length ∧ (jsTrim n).length ≤ 50 ∧
        (jsTrim n).data.all isAllowedNameChar = true) ∧
    ((createCategory s name).1 = CatCreateResult.badRequest →
      (createCategory s name).2 = s) ∧
    (∀ c s1, createCategory s name = (.created c, s1) →
      ∃ n, name = some n ∧ c.name = jsTrim n ∧
        s1.pg = s.pg ++ [⟨c.id, jsTrim n, []⟩] ∧
        s1.lite = s.lite ++ [⟨c.id, jsTrim n, []⟩]) := by
  refine ⟨?_, ?_, ?_⟩
  · cases name with
    | none => simp [createCategory]
    | some n =>
      constructor
      · intro hbr
        rintro ⟨n0, hn0, hlen2, hlen50, hall⟩
        obtain rfl : n = n0 := Option.some.inj hn0
        by_cases h1 : n = ""
        · subst h1
          exact absurd hlen2 (by decide)
        · have h2 : ¬ (jsTrim n).length < 2 := by omega
          have h3 : ¬ (jsTrim n).length > 50 := by omega
          have h4 : nameRegexTest (jsTrim n) = true := by
            unfold nameRegexTest
            rw [hall]
            have hne : (jsTrim n).data.isEmpty = false := by
              rw [List.isEmpty_eq_false_iff_exists_mem]
              cases hd : (jsTrim n).data with
              | nil =>
                exfalso
                have hlen0 : (jsTrim n).length = 0 := by
                  simp [String.length, hd]
                omega
              | cons a t => exact ⟨a, List.mem_cons_self a t⟩
            simp [hne]
          revert hbr
          simp only [createCategory, h1, h2, h3, h4]
          repeat' split
          all_goals simp_all
      · intro hnot
        by_cases h1 : n = ""
        · subst h1
          simp [createCategory]
        · push_neg at hnot
          have hone := hnot n rfl
          by_cases h2 : (jsTrim n).length < 2
          · simp [createCategory, h1, h2]
          · by_cases h3 : (jsTrim n).length > 50
            · simp [createCategory, h1, h2, h3]
            · have hall : ¬ (jsTrim n).data.all isAllowedNameChar = true := by
                intro hallT
                exact absurd hallT (hone (by omega) (by omega))
              have h4 : nameRegexTest (jsTrim n) = false := by
                unfold nameRegexTest
                rw [Bool.not_eq_true] at hall
                simp [hall]
              simp [createCategory, h1, h2, h3, h4]
  · intro hbr
    rcases createCategory_reject_no_write s name with h0 | ⟨c2, h0⟩
    · exact h0
    · rw [h0] at hbr
      exact absurd hbr (by simp)
  · intro c s1 h
    obtain ⟨n, rfl, -, -, -, -, -, -, -, -, hc, hs⟩ := createCategory_created_inv h
    refine ⟨n, rfl, by rw [hc], ?_, ?_⟩
    · rw [hs, hc]
    · rw [hs, hc]

/-- Witness for claim C10: a name with a forbidden character is rejected
with a validation error and the state is untouched. -/
theorem createCategory_validation_witness :
    (createCategory ⟨[], [], true, true, 0⟩ (some "La!b")).1 =
        CatCreateResult.badRequest ∧
      (createCategory ⟨[], [], true, true, 0⟩ (some "La!b")).2 =
        ⟨[], [], true, true, 0⟩ := by
  refine ⟨by decide, ?_⟩
  exact (createCategory_validation ⟨[], [], true, true, 0⟩ (some "La!b")).2.1 (by decide)

/-- Claim C2: every successful create of a replicated entity writes the
mirror row with the canonical row's generated id.  The current category
controller appends rows sharing one id; `createPlace` appends the
canonical row and exactly its replication image, sharing the id; and the
older category-controller variant never completes a create at all — its
mirror write targets the `Category` entity, unregistered on the SQLite
`DataSource`, so the request fails with the canonical row saved and the
mirror store never touched.  Hence whenever a canonical record and its
mirror both exist, they share the primary key. -/
theorem create_mirror_same_id :
    (∀ (s : CatState) (name : Option String) (c : CategoryRec) (s1 : CatState),
      createCategory s name = (.created c, s1) →
      s1.pg = s.pg ++ [⟨s.fresh, c.name, []⟩] ∧
        s1.lite = s.lite ++ [⟨s.fresh, c.name, []⟩] ∧ c.id = s.fresh) ∧
    (∀ (db : PlacesDb) (online : Bool) (f : PlaceFields) (p : PlaceRec)
        (db3 : PlacesDb),
      createPlace db online f = (.created p, db3) →
      db3.pg = db.pg ++ [p] ∧ db3.lite = db.lite ++ [mirrorOfPlace p] ∧
        p.id = db.fresh ∧ (mirrorOfPlace p).id = p.id) ∧
    (∀ (s : CatState) (name : Option String) (r : CatCreateResultV14)
        (s1 : CatState),
      createCategoryV14 s name = (r, s1) →
      s1.lite = s.lite ∧
        (r = CatCreateResultV14.serverError →
          ∃ n, name = some n ∧ s1.pg = s.pg ++ [⟨s.fresh, n, []⟩])) := by
  refine ⟨?_, ?_, ?_⟩
  · intro s name c s1 h
    obtain ⟨n, -, -, -, -, -, -, -, -, -, hc, hs⟩ := createCategory_created_inv h
    subst hc
    rw [hs]
    exact ⟨rfl, rfl, rfl⟩
  · intro db online f p db3 h
    simp only [createPlace] at h
    split at h
    · simp at h
    · split at h
      · simp at h
      · split at h
        · simp at h
        · split at h
          · simp at h
          · simp only [Prod.mk.injEq, CreatePlaceResult.created.injEq] at h
            obtain ⟨hp, hdb⟩ := h
            rw [← hdb, ← hp]
            exact ⟨rfl, rfl, rfl, rfl⟩
  · intro s name r s1 h
    simp only [createCategoryV14] at h
    split at h
    · rw [Prod.mk.injEq] at h
      obtain ⟨rfl, rfl⟩ := h
      exact ⟨rfl, by simp⟩
    · split at h
      · rw [Prod.mk.injEq] at h
        obtain ⟨rfl, rfl⟩ := h
        exact ⟨rfl, by simp⟩
      · split at h
        · rw [Prod.mk.injEq] at h
          obtain ⟨rfl, rfl⟩ := h
          exact ⟨rfl, by simp⟩
        · split at h
          · rw [Prod.mk.injEq] at h
            obtain ⟨rfl, rfl⟩ := h
            exact ⟨rfl, by simp⟩
          · rw [Prod.mk.injEq] at h
            obtain ⟨rfl, rfl⟩ := h
            exact ⟨rfl, fun _ => ⟨_, rfl, rfl⟩⟩

/-- Witness for claim C2: creating "Lab" in the empty dual store appends
one row with id 0 to each store, and the older variant's create on the
same input leaves the mirror store empty while saving the canonical row. -/
theorem create_mirror_same_id_witness :
    ((⟨[⟨0, "Lab", []⟩], [⟨0, "Lab", []⟩], true, true, 1⟩ : CatState).pg =
        [] ++ [⟨0, "Lab", []⟩] ∧
      (⟨[⟨0, "Lab", []⟩], [⟨0, "Lab", []⟩], true, true, 1⟩ : CatState).lite =
        [] ++ [⟨0, "Lab", []⟩] ∧
      (⟨0, "Lab", []⟩ : CategoryRec).id = 0) ∧
    ((⟨[⟨0, "Lab", []⟩], [], true, true, 1⟩ : CatState).lite =
        ([] : List CategoryLiteRec) ∧
      (CatCreateResultV14.serverError = CatCreateResultV14.serverError →
        ∃ n, (some "Lab" : Option String) = some n ∧
          (⟨[⟨0, "Lab", []⟩], [], true, true, 1⟩ : CatState).pg =
            [] ++ [⟨0, n, []⟩])) := by
  constructor
  · exact create_mirror_same_id.1 ⟨[], [], true, true, 0⟩ (some "Lab")
      ⟨0, "Lab", []⟩ ⟨[⟨0, "Lab", []⟩], [⟨0, "Lab", []⟩], true, true, 1⟩
      (by decide)
  · exact create_mirror_same_id.2.2 ⟨[], [], true, true, 0⟩ (some "Lab")
      CatCreateResultV14.serverError ⟨[⟨0, "Lab", []⟩], [], true, true, 1⟩
      (by decide)

/-- Claim C4: a read served while the canonical store is unreachable goes
through the Schema Normalizer; the normalized value has the full canonical
shape with the mirror's values on the mirror-schema fields (id, name,
latitude, longitude, category) — equal to the canonical row's values
whenever the mirror row is the canonical row's replication image — and
every field outside the mirror schema set to the explicit unavailable
marker (`null`, and `[]` for the courses relation), never omitted; the
dual-write create produces exactly that replication image. -/
theorem offline_read_normalized (db : PlacesDb) (id : Nat)
    (c : PlaceRec) (m : PlaceLiteRec) (hm : m = mirrorOfPlace c) :
    (getPlaceById db false id =
      (match db.lite.find? (fun p => p.id = id) with
        | none => ReadPlaceResult.notFound
        | some p => ReadPlaceResult.ok (formatPlaceLite p))) ∧
    (getPlaces db false = db.lite.map formatPlaceLite) ∧
    ((formatPlaceLite m).id = m.id ∧ (formatPlaceLite m).name = m.name ∧
      (formatPlaceLite m).latitude = m.latitude ∧
      (formatPlaceLite m).longitude = m.longitude ∧
      (formatPlaceLite m).category = m.category) ∧
    ((formatPlaceLite m).id = (placeResponse c).id ∧
      (formatPlaceLite m).name = (placeResponse c).name ∧
      (formatPlaceLite m).latitude = (placeResponse c).latitude ∧
      (formatPlaceLite m).longitude = (placeResponse c).longitude ∧
      (formatPlaceLite m).category = (placeResponse c).category) ∧
    ((formatPlaceLite m).description = none ∧ (formatPlaceLite m).photos = none ∧
      (formatPlaceLite m).officeOwner = none ∧ (formatPlaceLite m).capacity = none ∧
      (formatPlaceLite m).building = none ∧ (formatPlaceLite m).floor = none ∧
      (formatPlaceLite m).code = none ∧ (formatPlaceLite m).instructor = none ∧
      (formatPlaceLite m).courses = []) ∧
    (∀ db2 f p db3, f.category = none →
      createPlace db2 true f = (.created p, db3) →
      db3.lite = db2.lite ++ [mirrorOfPlace p]) := by
  subst hm
  refine ⟨by simp [getPlaceById], by simp [getPlaces],
    ⟨rfl, rfl, rfl, rfl, rfl⟩, ⟨rfl, rfl, rfl, rfl, rfl⟩,
    ⟨rfl, rfl, rfl, rfl, rfl, rfl, rfl, rfl, rfl⟩, ?_⟩
  intro db2 f p db3 hcat h
  simp only [createPlace, hcat] at h
  split at h
  · simp at h
  · split at h
    · simp at h
    · split at h
      · simp at h
      · split at h
        · simp at h
        · simp only [Prod.mk.injEq, CreatePlaceResult.created.injEq] at h
          obtain ⟨hp, hdb⟩ := h
          rw [← hdb, ← hp]
          rfl

/-- Witness for claim C4 at a concrete place row and a concrete create. -/
theorem offline_read_normalized_witness :
    (formatPlaceLite (mirrorOfPlace
        ⟨7, "Hall", some "big", none, 3, 4, none, none, none, none, none,
          none, none, []⟩)).name =
      (placeResponse
        ⟨7, "Hall", some "big", none, 3, 4, none, none, none, none, none,
          none, none, []⟩).name ∧
    (⟨[⟨0, "Lib", none, none, 4, 9, none, none, none, none, none, none,
          none, []⟩],
        [⟨0, "Lib", none, 4, 9⟩], [], [], [], 1⟩ : PlacesDb).lite =
      ([] : List PlaceLiteRec) ++
        [mirrorOfPlace ⟨0, "Lib", none, none, 4, 9, none, none, none, none,
          none, none, none, []⟩] := by
  constructor
  · exact (offline_read_normalized ⟨[], [], [], [], [], 0⟩ 7
      ⟨7, "Hall", some "big", none, 3, 4, none, none, none, none, none,
        none, none, []⟩ _ rfl).2.2.2.1.2.1
  · exact (offline_read_normalized ⟨[], [], [], [], [], 0⟩ 7
      ⟨7, "Hall", some "big", none, 3, 4, none, none, none, none, none,
        none, none, []⟩ _ rfl).2.2.2.2.2
      ⟨[], [], [], [], [], 0⟩
      ⟨some "Lib", none, some 4, some 9, none, none, none, none, none,
        none, none⟩
      ⟨0, "Lib", none, none, 4, 9, none, none, none, none, none, none,
        none, []⟩
      ⟨[⟨0, "Lib", none, none, 4, 9, none, none, none, none, none, none,
          none, []⟩],
        [⟨0, "Lib", none, 4, 9⟩], [], [], [], 1⟩
      rfl (by decide)

/-- Counterexample to claim C5 as stated: deleting a place present only in
the canonical store and deleting a place present only in the mirror store
both answer 204 with an empty body — the very same response value — so the
response does not report which stores were affected. -/
theorem deletePlace_no_report_counterexample :
    (deletePlace ⟨[⟨1, "Hall", none, none, 3, 4, none, none, none, none,
        none, none, none, []⟩], [], [], [], [], 10⟩ true 1).1 =
      DeletePlaceResult.noContent ∧
    (deletePlace ⟨[], [⟨2, "Annex", none, 5, 6⟩], [], [], [], 10⟩ true 2).1 =
      DeletePlaceResult.noContent ∧
    (deletePlace ⟨[⟨1, "Hall", none, none, 3, 4, none, none, none, none,
        none, none, none, []⟩], [], [], [], [], 10⟩ true 1).1 =
      (deletePlace ⟨[], [⟨2, "Annex", none, 5, 6⟩], [], [], [], 10⟩ true 2).1 ∧
    (deletePlace ⟨[⟨1, "Hall", none, none, 3, 4, none, none, none, none,
        none, none, none, []⟩], [], [], [], [], 10⟩ true 1).2.pg = [] ∧
    (deletePlace ⟨[], [⟨2, "Annex", none, 5, 6⟩], [], [], [], 10⟩ true 2).2.lite
      = [] := by
  decide

/-- Claim C5 (amended): rows are removed independently in each store where
the record exists; absence in one store is not an error (the partial
delete succeeds); absence in both stores is the only not-found case.  The
category delete reports the affected stores in `deletedFrom`; the place
delete answers 204 with no body, reporting nothing.  The older category
controller variant cannot delete at all: once the canonical row is found,
its mirror lookup targets the unregistered `Category` entity and the
request fails with a server error, both stores untouched; canonical
absence still yields not-found. -/
theorem delete_dual_store :
    (∀ (db : PlacesDb) (id : Nat), deletePlace db true id = (.notFound, db) ↔
      db.pg.find? (fun p => p.id = id) = none ∧
        db.lite.find? (fun p => p.id = id) = none) ∧
    (∀ (db : PlacesDb) (id : Nat) (lp : PlaceLiteRec),
      db.pg.find? (fun p => p.id = id) = none →
      db.lite.find? (fun p => p.id = id) = some lp →
      (deletePlace db true id).1 = DeletePlaceResult.noContent ∧
        (deletePlace db true id).2.pg = db.pg ∧
        (deletePlace db true id).2.lite = db.lite.eraseP (fun p => p.id = id)) ∧
    (∀ (db : PlacesDb) (id : Nat) (pp : PlaceRec),
      db.pg.find? (fun p => p.id = id) = some pp →
      db.lite.find? (fun p => p.id = id) = none →
      (deletePlace db true id).1 = DeletePlaceResult.noContent ∧
        (deletePlace db true id).2.pg = db.pg.eraseP (fun p => p.id = id) ∧
        (deletePlace db true id).2.lite = db.lite) ∧
    (∀ (s : CatState) (i : Nat) (cp : CategoryRec),
      s.pgInit = true → s.liteInit = true →
      s.pg.find? (fun c => c.id = i) = some cp → cp.places = [] →
      s.lite.find? (fun c => c.id = i) = none →
      (deleteCategory s (some i)).1 = DeleteCatResult.ok ["postgresql"] ∧
        (deleteCategory s (some i)).2.pg = s.pg.eraseP (fun c => c.id = i) ∧
        (deleteCategory s (some i)).2.lite = s.lite) ∧
    (∀ (s : CatState) (i : Nat),
      s.pgInit = true → s.liteInit = true →
      s.pg.find? (fun c => c.id = i) = none →
      s.lite.find? (fun c => c.id = i) = none →
      deleteCategory s (some i) = (.notFound, s)) ∧
    (∀ (s : CatState) (i : Nat) (cp : CategoryRec),
      s.pgInit = true →
      s.pg.find? (fun c => c.id = i) = some cp →
      deleteCategoryV14 s i = (.serverError, s)) ∧
    (∀ (s : CatState) (i : Nat),
      s.pgInit = true →
      s.pg.find? (fun c => c.id = i) = none →
      deleteCategoryV14 s i = (.notFound, s)) := by
  refine ⟨?_, ?_, ?_, ?_, ?_, ?_, ?_⟩
  · intro db id
    constructor
    · intro h
      by_cases hb : db.pg.find? (fun p => p.id = id) = none ∧
          db.lite.find? (fun p => p.id = id) = none
      · exact hb
      · simp [deletePlace, hb] at h
        exact absurd ⟨List.find?_eq_none.mpr (by simpa using h.1),
          List.find?_eq_none.mpr (by simpa using h.2)⟩ hb
    · intro hb
      simp [deletePlace, hb.1, hb.2]
  · intro db id lp hpg hlp
    simp [deletePlace, hpg, hlp]
  · intro db id pp hpp hlite
    simp [deletePlace, hpp, hlite]
  · intro s i cp hpgi hlitei hpg hplaces hlite
    simp [deleteCategory, hpgi, hlitei, hpg, hplaces, hlite]
  · intro s i hpgi hlitei hpg hlite
    simp [deleteCategory, hpgi, hlitei, hpg, hlite]
  · intro s i cp hpgi hpg
    simp [deleteCategoryV14, hpgi, hpg]
  · intro s i hpgi hpg
    simp [deleteCategoryV14, hpgi, hpg]

/-- Witness for claim C5: a category present only in the canonical store
is deleted with the report naming exactly that store. -/
theorem delete_dual_store_witness :
    (deleteCategory ⟨[⟨3, "Lab", []⟩], [], true, true, 4⟩ (some 3)).1 =
        DeleteCatResult.ok ["postgresql"] ∧
      (deleteCategory ⟨[⟨3, "Lab", []⟩], [], true, true, 4⟩ (some 3)).2.pg = [] ∧
      (deleteCategory ⟨[⟨3, "Lab", []⟩], [], true, true, 4⟩ (some 3)).2.lite = [] := by
  have h := delete_dual_store.2.2.2.1 ⟨[⟨3, "Lab", []⟩], [], true, true, 4⟩ 3
    ⟨3, "Lab", []⟩ (by decide) (by decide) (by decide) (by decide) (by decide)
  exact ⟨h.1, h.2.1, h.2.2⟩

/-- Counterexample to claim C6 as stated: updating a place that exists
only in the mirror store — absent from the canonical store — succeeds:
the mirror row is renamed and returned, instead of the update being
rejected. -/
theorem updatePlace_mirror_only_counterexample :
    (updatePlace ⟨[], [⟨1, "Annex", none, 5, 6⟩], [], [], [], 10⟩ true 1
        ⟨some "Annex2", none, none, none, none, none, none, none, none,
          none, none⟩).1 =
      UpdatePlaceResult.okLite ⟨1, "Annex2", none, 5, 6⟩ ∧
    (updatePlace ⟨[], [⟨1, "Annex", none, 5, 6⟩], [], [], [], 10⟩ true 1
        ⟨some "Annex2", none, none, none, none, none, none, none, none,
          none, none⟩).2.lite = [⟨1, "Annex2", none, 5, 6⟩] ∧
    (updatePlace ⟨[], [⟨1, "Annex", none, 5, 6⟩], [], [], [], 10⟩ true 1
        ⟨some "Annex2", none, none, none, none, none, none, none, none,
          none, none⟩).2.pg = [] := by
  decide

/-- Claim C6 (amended): the update contract differs per entity class and
is not one deployment-wide choice.  `updatePlace` requires the record in
at least one store, and for a request naming no category (and no unknown
instructor) it merges the record in exactly the stores that hold it —
both stores when both rows exist, canonical-only when the mirror row is
missing, and mirror-only, successfully, when the canonical row is
missing; a request naming a truthy category instead fails with a server
error before any write, because the mirror category lookup targets the
unregistered `Category` entity.  `updateCategory` requires the record in
both stores and rejects with not-found whenever either row — in
particular the mirror row — is missing. -/
theorem update_policy_per_entity :
    (∀ (db : PlacesDb) (id : Nat) (f : PlaceFields),
      db.pg.find? (fun p => p.id = id) = none →
      db.lite.find? (fun p => p.id = id) = none →
      updatePlace db true id f = (.notFound, db)) ∧
    (∀ (db : PlacesDb) (id : Nat) (f : PlaceFields) (cn : String),
      f.category = some cn → ¬ cn = "" →
      ¬ (db.pg.find? (fun p => p.id = id) = none ∧
        db.lite.find? (fun p => p.id = id) = none) →
      updatePlace db true id f = (.serverError, db)) ∧
    (∀ (db : PlacesDb) (id : Nat) (f : PlaceFields) (pp : PlaceRec),
      f.category = none → f.instructorId = none →
      db.pg.find? (fun p => p.id = id) = some pp →
      db.lite.find? (fun p => p.id = id) = none →
      (updatePlace db true id f).1 = UpdatePlaceResult.okPg (mergePlace pp f none) ∧
        (updatePlace db true id f).2.lite = db.lite ∧
        (updatePlace db true id f).2.pg =
          db.pg.map (fun p => if p.id = id then mergePlace p f none else p)) ∧
    (∀ (db : PlacesDb) (id : Nat) (f : PlaceFields) (lp : PlaceLiteRec),
      f.category = none → f.instructorId = none →
      db.pg.find? (fun p => p.id = id) = none →
      db.lite.find? (fun p => p.id = id) = some lp →
      (updatePlace db true id f).1 = UpdatePlaceResult.okLite (mergeLite lp f none) ∧
        (updatePlace db true id f).2.pg = db.pg ∧
        (updatePlace db true id f).2.lite =
          db.lite.map (fun p => if p.id = id then mergeLite p f none else p)) ∧
    (∀ (db : PlacesDb) (id : Nat) (f : PlaceFields) (pp : PlaceRec)
        (lp : PlaceLiteRec),
      f.category = none → f.instructorId = none →
      db.pg.find? (fun p => p.id = id) = some pp →
      db.lite.find? (fun p => p.id = id) = some lp →
      (updatePlace db true id f).1 = UpdatePlaceResult.okPg (mergePlace pp f none) ∧
        (updatePlace db true id f).2.pg =
          db.pg.map (fun p => if p.id = id then mergePlace p f none else p) ∧
        (updatePlace db true id f).2.lite =
          db.lite.map (fun p => if p.id = id then mergeLite p f none else p)) ∧
    (∀ (s : CatState) (i : Nat) (n : String),
      s.pgInit = true → s.liteInit = true → ¬ n = "" →
      2 ≤ (jsTrim n).length → (jsTrim n).length ≤ 50 →
      nameRegexTest (jsTrim n) = true →
      (s.pg.find? (fun c => c.id = i) = none ∨
        s.lite.find? (fun c => c.id = i) = none) →
      updateCategory s (some i) (some n) = (.notFound, s)) := by
  refine ⟨?_, ?_, ?_, ?_, ?_, ?_⟩
  · intro db id f hpg hlite
    simp [updatePlace, hpg, hlite]
  · intro db id f cn hcat hcn hpresent
    simp [updatePlace, hcat, falsyS, hcn]
    rw [List.find?_eq_none, List.find?_eq_none] at hpresent
    push_neg at hpresent
    simpa using hpresent
  · intro db id f pp hcat hinstr hpg hlite
    simp [updatePlace, hpg, hlite, hcat, falsyS, hinstr]
  · intro db id f lp hcat hinstr hpg hlite
    simp [updatePlace, hpg, hlite, hcat, falsyS, hinstr]
  · intro db id f pp lp hcat hinstr hpg hlite
    simp [updatePlace, hpg, hlite, hcat, falsyS, hinstr]
  · intro s i n hpgi hlitei h1 h2 h3 h4 hmiss
    have hl2 : ¬ (jsTrim n).length < 2 := by omega
    have hl3 : ¬ (jsTrim n).length > 50 := by omega
    rcases hmiss with hmiss | hmiss
    · cases hlite : s.lite.find? (fun c => c.id = i) with
      | none => simp [updateCategory, h1, hl2, hl3, h4, hpgi, hlitei, hmiss, hlite]
      | some cl => simp [updateCategory, h1, hl2, hl3, h4, hpgi, hlitei, hmiss, hlite]
    · cases hpg : s.pg.find? (fun c => c.id = i) with
      | none => simp [updateCategory, h1, hl2, hl3, h4, hpgi, hlitei, hmiss, hpg]
      | some cp => simp [updateCategory, h1, hl2, hl3, h4, hpgi, hlitei, hmiss, hpg]

/-- Witness for claim C6: a place present only in the canonical store is
updated canonically while the same situation for a category is rejected. -/
theorem update_policy_per_entity_witness :
    (updatePlace ⟨[⟨1, "Hall", none, none, 3, 4, none, none, none, none,
        none, none, none, []⟩], [], [], [], [], 10⟩ true 1
        ⟨some "Hall2", none, none, none, none, none, none, none, none,
          none, none⟩).1 =
      UpdatePlaceResult.okPg (mergePlace
        ⟨1, "Hall", none, none, 3, 4, none, none, none, none, none, none,
          none, []⟩
        ⟨some "Hall2", none, none, none, none, none, none, none, none,
          none, none⟩ none) ∧
    updateCategory ⟨[⟨3, "Lab", []⟩], [], true, true, 4⟩ (some 3)
        (some "Labo") = (.notFound, ⟨[⟨3, "Lab", []⟩], [], true, true, 4⟩) := by
  constructor
  · exact (update_policy_per_entity.2.2.1
      ⟨[⟨1, "Hall", none, none, 3, 4, none, none, none, none, none, none,
          none, []⟩], [], [], [], [], 10⟩ 1
      ⟨some "Hall2", none, none, none, none, none, none, none, none,
        none, none⟩
      ⟨1, "Hall", none, none, 3, 4, none, none, none, none, none, none,
        none, []⟩
      rfl rfl (by decide) (by decide)).1
  · exact update_policy_per_entity.2.2.2.2.2
      ⟨[⟨3, "Lab", []⟩], [], true, true, 4⟩ 3 "Labo"
      (by decide) (by decide) (by decide) (by decide) (by decide) (by decide)
      (Or.inr (by decide))

end CampusMap
